import Mathlib

/-!
Verification of the ST2022 shared-task baseline (`src/sigtypst2022.py`):
the proto-gap merge (`ungap`), the sound alphabet built by `Baseline.fit`,
the correspondence-pattern classifier (`CorPaRClassifier`) and the
orchestration in `Baseline`.  Python dicts are modelled as insertion-ordered
association lists, Python lists as Lean lists, and machine-level details
(hash-based set iteration inside `networkx.find_cliques`) are factored out
by passing the clique enumeration as an explicit argument.
-/

namespace ST2022

/-! ### Association lists modelling Python dicts (insertion order, in-place update) -/

/-- First-match lookup, as `d[k]` / `d.get(k)` on a Python dict whose pairs are
kept in insertion order. -/
def lookupA {α β : Type} [DecidableEq α] : List (α × β) → α → Option β
  | [], _ => none
  | p :: rest, k => if p.1 = k then some p.2 else lookupA rest k

/-- `d[k] = v`: replace in place if the key exists, else append at the end. -/
def updateA {α β : Type} [DecidableEq α] : List (α × β) → α → β → List (α × β)
  | [], k, v => [(k, v)]
  | p :: rest, k, v => if p.1 = k then (k, v) :: rest else p :: updateA rest k v

/-- `defaultdict` style read-modify-write: `d[k] = f(d.get(k))`. -/
def alterA {α β : Type} [DecidableEq α] : List (α × β) → α → (Option β → β) → List (α × β)
  | [], k, f => [(k, f none)]
  | p :: rest, k, f => if p.1 = k then (k, f (some p.2)) :: rest else p :: alterA rest k f

/-- `{v: k for k, v in d.items()}`: fold the swapped pairs, later pairs
overwriting earlier ones with the same (new) key. -/
def invertAux {α β : Type} [DecidableEq β] : List (β × α) → List (α × β) → List (β × α)
  | acc, [] => acc
  | acc, (k, v) :: rest => invertAux (updateA acc v k) rest

def invertA {α β : Type} [DecidableEq β] (l : List (α × β)) : List (β × α) :=
  invertAux [] l

/-! ### The proto-gap merge `ungap` (sigtypst2022.py lines 170-213) -/

/-- Indices of the rows belonging to the reference (proto) language. -/
def pidxsOf (languages : List String) (proto : String) : List Nat :=
  (languages.enum.filter (fun p => p.2 = proto)).map (fun p => p.1)

/-- Column `i` restricted to the rows not belonging to the proto language
(`col_rest` in the source).  Out-of-range cells default to `""`; the theorems
only use rectangular alignments, where every access is in range. -/
def colRest (alignment : List (List String)) (pidxs : List Nat) (i : Nat) : List String :=
  ((alignment.enum.filter (fun p => decide (¬ p.1 ∈ pidxs))).map (fun p => p.2.getD i ""))

/-- The mergeability test of one column:
`"-" in col_rest and len(set(col_rest)) == 1`. -/
def mergeableB (alignment : List (List String)) (pidxs : List Nat) (i : Nat) : Bool :=
  (colRest alignment pidxs i).contains "-" && ((colRest alignment pidxs i).dedup.length == 1)

/-- The list `merges` of mergeable column indices. -/
def mergesOf (alignment : List (List String)) (languages : List String) (proto : String) :
    List Nat :=
  (List.range (alignment.headD []).length).filter (mergeableB alignment (pidxsOf languages proto))

/-- The per-row loop of `ungap`.  `acc` holds the cells built so far in
reverse order (its head is Python's `new_alm[-1]`); `j` is the column index,
`mergeit` / `started` the two loop flags.  When `new_alm` is empty at the
`new_alm[-1]` access (never reached from `ungapRow`, since `started` is false
only after a cell has been appended) the cell is skipped. -/
def ungapRowAux (merges : List Nat) :
    List String → Nat → Bool → Bool → List String → List String
  | acc, _, _, _, [] => acc.reverse
  | acc, j, mergeit, started, cell :: rest =>
    if j ∈ merges ∨ mergeit = true then
      if started = false then
        if cell = "-" then
          ungapRowAux merges acc (j + 1) false started rest
        else
          match acc with
          | [] => ungapRowAux merges acc (j + 1) false started rest
          | last :: prev =>
            ungapRowAux merges
              ((if last = "" then cell else last ++ "." ++ cell) :: prev)
              (j + 1) false started rest
      else
        ungapRowAux merges ((if cell = "-" then "" else cell) :: acc)
          (j + 1) true started rest
    else
      ungapRowAux merges (cell :: acc) (j + 1) mergeit false rest

/-- One row of the merged alignment, including the final pass replacing empty
cells by the gap symbol. -/
def ungapRow (merges : List Nat) (row : List String) : List String :=
  (ungapRowAux merges [] 0 false true row).map (fun c => if c = "" then "-" else c)

/-- `ungap(alignment, languages, proto)`. -/
def ungap (alignment : List (List String)) (languages : List String) (proto : String) :
    List (List String) :=
  let merges := mergesOf alignment languages proto
  if merges = [] then alignment else alignment.map (ungapRow merges)

/-! ### Shape of `ungap` output -/

/-- The number of cells the row loop emits.  The branch structure of
`ungapRowAux` depends only on the column index and the two flags, never on
the cell contents, so the count is a function of the row length alone. -/
def countCellsN (merges : List Nat) : Nat → Bool → Bool → Nat → Nat
  | _, _, _, 0 => 0
  | j, mergeit, started, n + 1 =>
    if j ∈ merges ∨ mergeit = true then
      if started = false then countCellsN merges (j + 1) false started n
      else 1 + countCellsN merges (j + 1) true started n
    else 1 + countCellsN merges (j + 1) mergeit false n

theorem ungapRowAux_length (merges : List Nat) :
    ∀ (cells : List String) (acc : List String) (j : Nat) (m s : Bool),
    (ungapRowAux merges acc j m s cells).length =
      acc.length + countCellsN merges j m s cells.length := by
  intro cells
  induction cells with
  | nil => intro acc j m s; simp [ungapRowAux, countCellsN]
  | cons c rest ih =>
    intro acc j m s
    simp only [ungapRowAux, List.length_cons, countCellsN]
    by_cases hc : j ∈ merges ∨ m = true
    · rw [if_pos hc, if_pos hc]
      by_cases hs : s = false
      · rw [if_pos hs, if_pos hs]
        by_cases hg : c = "-"
        · rw [if_pos hg, ih]
        · rw [if_neg hg]
          cases acc with
          | nil => rw [ih]
          | cons last prev => rw [ih]; simp
      · rw [if_neg hs, if_neg hs, ih]
        simp [Nat.add_assoc, Nat.add_comm 1]
    · rw [if_neg hc, if_neg hc, ih]
      simp [Nat.add_assoc, Nat.add_comm 1]

theorem countCellsN_le (merges : List Nat) :
    ∀ (n : Nat) (j : Nat) (m s : Bool), countCellsN merges j m s n ≤ n := by
  intro n
  induction n with
  | zero => intro j m s; simp [countCellsN]
  | succ k ih =>
    intro j m s
    rw [countCellsN]
    by_cases hc : j ∈ merges ∨ m = true
    · rw [if_pos hc]
      by_cases hs : s = false
      · rw [if_pos hs]; exact Nat.le_succ_of_le (ih _ _ _)
      · rw [if_neg hs]; have := ih (j + 1) true s; omega
    · rw [if_neg hc]; have := ih (j + 1) m false; omega

theorem ungapRow_length (merges : List Nat) (row : List String) :
    (ungapRow merges row).length = countCellsN merges 0 false true row.length := by
  rw [ungapRow, List.length_map, ungapRowAux_length]
  simp

/-- C10.  For every nonempty rectangular alignment, the merge keeps the number
and order of rows (it maps each input row to an output row in place) and all
output rows again share one length, which is at most the input length. -/
theorem C10_ungap_shape (A : List (List String)) (ls : List String) (p : String)
    (_hA : A ≠ []) (hrect : ∀ r ∈ A, r.length = (A.headD []).length) :
    (ungap A ls p).length = A.length ∧
      ∃ m, m ≤ (A.headD []).length ∧ ∀ r ∈ ungap A ls p, r.length = m := by
  rw [ungap]
  by_cases hm : mergesOf A ls p = []
  · rw [if_pos hm]
    exact ⟨rfl, (A.headD []).length, Nat.le.refl, hrect⟩
  · rw [if_neg hm]
    refine ⟨List.length_map _ _, countCellsN (mergesOf A ls p) 0 false true (A.headD []).length,
      countCellsN_le _ _ _ _ _, ?_⟩
    intro r hr
    rcases List.mem_map.mp hr with ⟨r₀, hr₀, rfl⟩
    rw [ungapRow_length, hrect r₀ hr₀]

/-- C10 witness. -/
theorem C10_ungap_shape_witness :
    ([["x", "-"], ["x", "y"]] : List (List String)) ≠ [] ∧
      (∀ r ∈ ([["x", "-"], ["x", "y"]] : List (List String)),
        r.length = ([["x", "-"], ["x", "y"]].headD []).length) ∧
      ((ungap [["x", "-"], ["x", "y"]] ["A", "B"] "B").length = 2 ∧
        ∃ m, m ≤ 2 ∧ ∀ r ∈ ungap [["x", "-"], ["x", "y"]] ["A", "B"] "B", r.length = m) := by
  refine ⟨by decide, by decide, ?_⟩
  exact C10_ungap_shape [["x", "-"], ["x", "y"]] ["A", "B"] "B" (by decide) (by decide)

/-- C3.  On the alignment `[["-","a","-"],["x","y","z"]]` with reference
language `"B"`, columns 0 and 2 are mergeable and column 2 has the
non-mergeable column 1 before it, yet `ungap` returns the alignment
unchanged: a mergeable first column makes the `started`/`mergeit` flags keep
every later column in the "start a new cell" branch, so no collapsing at all
happens, contrary to the claimed collapsing of every mergeable column (the
code's own comment `#j != 0` documents the intended guard). -/
theorem C3_leading_mergeable_column_disables_merge :
    mergesOf [["-", "a", "-"], ["x", "y", "z"]] ["A", "B"] "B" = [0, 2] ∧
      ungap [["-", "a", "-"], ["x", "y", "z"]] ["A", "B"] "B" =
        [["-", "a", "-"], ["x", "y", "z"]] ∧
      ungap [["-", "a", "-"], ["x", "y", "z"]] ["A", "B"] "B" ≠
        [["-", "a"], ["x", "y.z"]] := by
  refine ⟨by decide, by decide, by decide⟩

/-! ### Generic list helpers -/

theorem filter_map_comp {α β : Type} (f : α → β) (p : β → Bool) (l : List α) :
    (l.map f).filter p = (l.filter (fun a => p (f a))).map f := by
  induction l with
  | nil => rfl
  | cons a t ih =>
    simp only [List.map_cons, List.filter_cons]
    by_cases h : p (f a) = true
    · simp [h, ih]
    · simp [h, ih]

theorem getD_map {α β : Type} (l : List α) (f : α → β) (k : Nat) (d : β) (d' : α)
    (h : k < l.length) : (l.map f).getD k d = f (l.getD k d') := by
  induction l generalizing k with
  | nil => simp at h
  | cons a t ih =>
    cases k with
    | zero => rfl
    | succ m =>
      simp only [List.map_cons, List.getD_cons_succ]
      exact ih m (by simpa using h)

theorem getD_mem {α : Type} (l : List α) (k : Nat) (d : α) (h : k < l.length) :
    l.getD k d ∈ l := by
  induction l generalizing k with
  | nil => simp at h
  | cons a t ih =>
    cases k with
    | zero => exact List.mem_cons_self _ _
    | succ m => exact List.mem_cons_of_mem _ (ih m (by simpa using h))

theorem enumFrom_map {α β : Type} (f : α → β) (l : List α) :
    ∀ n, (l.map f).enumFrom n = (l.enumFrom n).map (fun p => (p.1, f p.2)) := by
  induction l with
  | nil => intro n; rfl
  | cons a t ih => intro n; simp [List.enumFrom, ih]

theorem mem_of_mem_enumFrom {α : Type} (l : List α) :
    ∀ (n : Nat) (p : Nat × α), p ∈ l.enumFrom n → p.2 ∈ l := by
  induction l with
  | nil => intro n p h; simp [List.enumFrom] at h
  | cons a t ih =>
    intro n p h
    rcases List.mem_cons.mp h with h | h
    · subst h; exact List.mem_cons_self _ _
    · exact List.mem_cons_of_mem _ (ih (n + 1) p h)

theorem all_eq_of_mem_dedup_len1 {α : Type} [DecidableEq α] (l : List α) (a : α)
    (ha : a ∈ l) (hd : l.dedup.length = 1) : ∀ x ∈ l, x = a := by
  rcases List.length_eq_one.mp hd with ⟨b, hb⟩
  intro x hx
  have hxa : x ∈ l.dedup := List.mem_dedup.mpr hx
  have haa : a ∈ l.dedup := List.mem_dedup.mpr ha
  rw [hb] at hxa haa
  simp at hxa haa
  rw [hxa, haa]

/-! ### Characterizations of the `ungap` row loop for the idempotence proof -/

/-- Once a mergeable first column has set both flags, every later column takes
the "start a new cell" branch (so the row is emitted cell by cell). -/
theorem ungapRowAux_true_true (merges : List Nat) :
    ∀ (cells acc : List String) (j : Nat),
    ungapRowAux merges acc j true true cells =
      acc.reverse ++ cells.map (fun c => if c = "-" then "" else c) := by
  intro cells
  induction cells with
  | nil => intro acc j; simp [ungapRowAux]
  | cons c rest ih =>
    intro acc j
    simp only [ungapRowAux]
    rw [if_pos (Or.inr trivial), if_neg (by simp)]
    rw [ih]
    simp

/-- When the first column is mergeable, the merge leaves every row unchanged
(the only rewriting, gap to empty and back, cancels on nonempty cells). -/
theorem ungapRow_zero_mem (merges : List Nat) (row : List String)
    (h0 : 0 ∈ merges) (hne : ∀ c ∈ row, c ≠ "") :
    ungapRow merges row = row := by
  cases row with
  | nil => rfl
  | cons c rest =>
    rw [ungapRow]
    simp only [ungapRowAux]
    rw [if_pos (Or.inl h0), if_neg (by simp)]
    rw [ungapRowAux_true_true]
    simp only [List.reverse_cons, List.reverse_nil, List.nil_append,
      List.singleton_append, List.map_cons, List.map_map]
    have h1 : (if (if c = "-" then "" else c) = "" then "-" else if c = "-" then "" else c) = c := by
      by_cases hg : c = "-"
      · simp [hg]
      · simp [hg, hne c (List.mem_cons_self _ _)]
    have h2 : rest.map ((fun c => if c = "" then "-" else c) ∘ fun c => if c = "-" then "" else c)
        = rest := by
      have hcg : ∀ x ∈ rest,
          ((fun c => if c = "" then "-" else c) ∘ fun c => if c = "-" then "" else c) x = id x := by
        intro x hx
        have hxne : x ≠ "" := hne x (List.mem_cons_of_mem _ hx)
        by_cases hg : x = "-" <;> simp [Function.comp, hg, hxne]
      rw [List.map_congr_left hcg, List.map_id]
    rw [h1, h2]

/-- Row loop with both flags off and all mergeable cells equal to the gap:
the mergeable columns are dropped and the rest are copied. -/
theorem ungapRowAux_false_false (merges : List Nat) :
    ∀ (cells : List String) (j : Nat) (acc : List String),
    (∀ k, k < cells.length → (j + k) ∈ merges → cells.getD k "" = "-") →
    ungapRowAux merges acc j false false cells =
      acc.reverse ++
        (((List.range cells.length).filter (fun k => decide ((j + k) ∉ merges))).map
          (fun k => cells.getD k "")) := by
  intro cells
  induction cells with
  | nil => intro j acc _; simp [ungapRowAux]
  | cons c rest ih =>
    intro j acc hgap
    have hshift : ∀ k, k < rest.length → (j + 1 + k) ∈ merges → rest.getD k "" = "-" := by
      intro k hk hm
      have := hgap (k + 1) (by simpa using Nat.succ_lt_succ hk)
        (by rw [show j + (k + 1) = j + 1 + k by omega]; exact hm)
      simpa using this
    by_cases hj : j ∈ merges
    · have hc : c = "-" := by simpa using hgap 0 (Nat.succ_pos _) (by simpa using hj)
      simp only [ungapRowAux]
      rw [if_pos (Or.inl hj), if_pos trivial, if_pos hc, ih _ _ hshift]
      congr 1
      rw [List.length_cons, List.range_succ_eq_map, List.filter_cons]
      rw [if_neg (by simp [hj]), filter_map_comp, List.map_map]
      rw [show (fun a : Nat => decide (j + a.succ ∉ merges))
            = (fun k : Nat => decide (j + 1 + k ∉ merges)) from ?_]
      · apply List.map_congr_left
        intro k hk
        simp [Function.comp, List.getD_cons_succ]
      · funext a
        rw [show j + a.succ = j + 1 + a by omega]
    · simp only [ungapRowAux]
      rw [if_neg (by simp [hj]), ih _ _ hshift]
      simp only [List.reverse_cons, List.append_assoc, List.singleton_append]
      congr 1
      rw [List.length_cons, List.range_succ_eq_map, List.filter_cons]
      rw [if_pos (by simp [hj]), List.map_cons, List.getD_cons_zero]
      congr 1
      rw [filter_map_comp, List.map_map]
      rw [show (fun a : Nat => decide (j + a.succ ∉ merges))
            = (fun k : Nat => decide (j + 1 + k ∉ merges)) from ?_]
      · apply List.map_congr_left
        intro k hk
        simp [Function.comp, List.getD_cons_succ]
      · funext a
        rw [show j + a.succ = j + 1 + a by omega]

theorem decide_shift (merges : List Nat) (j : Nat) :
    (fun a : Nat => decide (j + a.succ ∉ merges)) = (fun k : Nat => decide (j + 1 + k ∉ merges)) := by
  funext a
  rw [show j + a.succ = j + 1 + a by omega]

theorem decide_shift0 (merges : List Nat) :
    (fun a : Nat => decide (a.succ ∉ merges)) = (fun k : Nat => decide (1 + k ∉ merges)) := by
  funext a
  rw [show a.succ = 1 + a by omega]

/-- When the first column is not mergeable, a row whose mergeable cells are
all gaps is mapped to its restriction to the non-mergeable columns. -/
theorem ungapRow_no_zero (merges : List Nat) (row : List String)
    (h0 : 0 ∉ merges)
    (hgap : ∀ k, k < row.length → k ∈ merges → row.getD k "" = "-")
    (hne : ∀ c ∈ row, c ≠ "") :
    ungapRow merges row =
      ((List.range row.length).filter (fun k => decide (k ∉ merges))).map
        (fun k => row.getD k "") := by
  cases row with
  | nil => rfl
  | cons c rest =>
    have hshift : ∀ k, k < rest.length → (1 + k) ∈ merges → rest.getD k "" = "-" := by
      intro k hk hm
      have := hgap (k + 1) (by simpa using Nat.succ_lt_succ hk)
        (by rw [show k + 1 = 1 + k by omega]; exact hm)
      simpa using this
    rw [ungapRow]
    simp only [ungapRowAux]
    rw [if_neg (by simp [h0])]
    simp only [Nat.zero_add]
    rw [ungapRowAux_false_false merges rest 1 [c] hshift]
    simp only [List.reverse_cons, List.reverse_nil, List.nil_append,
      List.singleton_append, List.map_cons]
    have h1 : (if c = "" then "-" else c) = c := by simp [hne c (List.mem_cons_self _ _)]
    rw [h1]
    rw [List.length_cons, List.range_succ_eq_map, List.filter_cons]
    rw [if_pos (show decide (0 ∉ merges) = true by simpa using h0)]
    rw [List.map_cons, List.getD_cons_zero]
    congr 1
    rw [filter_map_comp, List.map_map, List.map_map, decide_shift0]
    apply List.map_congr_left
    intro k hk
    have hkr : k < rest.length := List.mem_range.mp (List.mem_filter.mp hk).1
    have hkne : rest.getD k "" ≠ "" :=
      hne _ (List.mem_cons_of_mem _ (getD_mem rest k "" hkr))
    simp only [List.getD, List.get?_eq_getElem?] at hkne
    simp [Function.comp, List.getD_cons_succ, List.getD, hkne]

theorem countCellsN_step_mem (merges : List Nat) (j n : Nat) (hj : j ∈ merges) :
    countCellsN merges j false false (n + 1) = countCellsN merges (j + 1) false false n := by
  simp [countCellsN, hj]

theorem countCellsN_step_notmem (merges : List Nat) (j n : Nat) (hj : j ∉ merges) :
    countCellsN merges j false false (n + 1) = 1 + countCellsN merges (j + 1) false false n := by
  simp [countCellsN, hj]

theorem countCellsN_step_start (merges : List Nat) (n : Nat) (h0 : 0 ∉ merges) :
    countCellsN merges 0 false true (n + 1) = 1 + countCellsN merges 1 false false n := by
  simp [countCellsN, h0]

theorem countCellsN_false_false (merges : List Nat) :
    ∀ (n j : Nat), countCellsN merges j false false n =
      ((List.range n).filter (fun k => decide ((j + k) ∉ merges))).length := by
  intro n
  induction n with
  | zero => intro j; rfl
  | succ m ih =>
    intro j
    rw [List.range_succ_eq_map, List.filter_cons, filter_map_comp, decide_shift merges j]
    by_cases hj : j ∈ merges
    · rw [countCellsN_step_mem merges j m hj, ih (j + 1), if_neg (by simp [hj])]
      simp
    · rw [countCellsN_step_notmem merges j m hj, ih (j + 1), if_pos (by simp [hj])]
      simp only [List.length_cons, List.length_map]
      omega

theorem countCellsN_start (merges : List Nat) (n : Nat) (h0 : 0 ∉ merges) :
    countCellsN merges 0 false true n =
      ((List.range n).filter (fun k => decide (k ∉ merges))).length := by
  cases n with
  | zero => rfl
  | succ m =>
    rw [countCellsN_step_start merges m h0]
    rw [List.range_succ_eq_map, List.filter_cons, filter_map_comp, decide_shift0]
    rw [if_pos (by simpa using h0)]
    rw [countCellsN_false_false merges m 1]
    simp only [List.length_cons, List.length_map]
    omega

theorem ungap_eq (A : List (List String)) (ls : List String) (p : String) :
    ungap A ls p =
      if mergesOf A ls p = [] then A else A.map (ungapRow (mergesOf A ls p)) := rfl

theorem enum_map {α β : Type} (f : α → β) (l : List α) :
    (l.map f).enum = l.enum.map (fun p => (p.1, f p.2)) :=
  enumFrom_map f l 0

/-- Transfer lemma: column `k` of the merged alignment, restricted to the
non-proto rows, is column `idxs[k]` of the input alignment (where `idxs`
enumerates the non-mergeable input columns), provided the first column is not
mergeable. -/
theorem colRest_ungap_transfer (A : List (List String)) (ls : List String) (p : String)
    (hrect : ∀ r ∈ A, r.length = (A.headD []).length)
    (hne : ∀ r ∈ A, ∀ c ∈ r, c ≠ "")
    (h0 : 0 ∉ mergesOf A ls p) (k : Nat)
    (hk : k < ((List.range (A.headD []).length).filter
      (fun j => decide (j ∉ mergesOf A ls p))).length) :
    colRest (A.map (ungapRow (mergesOf A ls p))) (pidxsOf ls p) k =
      colRest A (pidxsOf ls p)
        (((List.range (A.headD []).length).filter
          (fun j => decide (j ∉ mergesOf A ls p))).getD k 0) := by
  simp only [colRest]
  rw [enum_map, filter_map_comp, List.map_map]
  apply List.map_congr_left
  intro q hq
  have hqA : q.2 ∈ A := mem_of_mem_enumFrom A 0 q (List.mem_filter.mp hq).1
  have hqp : ¬ q.1 ∈ pidxsOf ls p := by
    have := (List.mem_filter.mp hq).2
    simpa using this
  simp only [Function.comp]
  have hgap : ∀ j, j < q.2.length → j ∈ mergesOf A ls p → q.2.getD j "" = "-" := by
    intro j hj hjm
    have hmem : q.2.getD j "" ∈ colRest A (pidxsOf ls p) j := by
      simp only [colRest]
      apply List.mem_map.mpr
      refine ⟨q, ?_, rfl⟩
      apply List.mem_filter.mpr
      exact ⟨(List.mem_filter.mp hq).1, by simpa using hqp⟩
    have hcond := (List.mem_filter.mp (by simpa [mergesOf] using hjm : j ∈
      (List.range (A.headD []).length).filter (mergeableB A (pidxsOf ls p)))).2
    have hcontains : ("-" : String) ∈ colRest A (pidxsOf ls p) j := by
      have := (Bool.and_eq_true _ _).mp hcond
      simpa using this.1
    have hdlen : (colRest A (pidxsOf ls p) j).dedup.length = 1 := by
      have := (Bool.and_eq_true _ _).mp hcond
      simpa using this.2
    exact all_eq_of_mem_dedup_len1 _ _ hcontains hdlen _ hmem
  rw [ungapRow_no_zero (mergesOf A ls p) q.2 h0 hgap (hne q.2 hqA)]
  rw [hrect q.2 hqA]
  exact getD_map _ _ k "" 0 hk

/-- C7 (amended).  The proto-gap merge is idempotent on every rectangular
alignment none of whose cells is the empty string. -/
theorem C7_ungap_idempotent (A : List (List String)) (ls : List String) (p : String)
    (hrect : ∀ r ∈ A, r.length = (A.headD []).length)
    (hne : ∀ r ∈ A, ∀ c ∈ r, c ≠ "") :
    ungap (ungap A ls p) ls p = ungap A ls p := by
  by_cases hm : mergesOf A ls p = []
  · have h1 : ungap A ls p = A := by rw [ungap_eq, if_pos hm]
    rw [h1]
    exact h1
  · by_cases h0 : 0 ∈ mergesOf A ls p
    · have h1 : ungap A ls p = A := by
        rw [ungap_eq, if_neg hm]
        have hall : ∀ r ∈ A, ungapRow (mergesOf A ls p) r = id r := by
          intro r hr
          exact ungapRow_zero_mem _ r h0 (hne r hr)
        rw [List.map_congr_left hall, List.map_id]
      rw [h1]
      exact h1
    · -- first column not mergeable: the merged alignment has no mergeable column
      have hout : ungap A ls p = A.map (ungapRow (mergesOf A ls p)) := by
        rw [ungap_eq, if_neg hm]
      rcases A with _ | ⟨r0, A'⟩
      · exact absurd rfl hm
      set M := mergesOf (r0 :: A') ls p with hM
      set n := ((r0 :: A').headD []).length with hn
      have hr0len : r0.length = n := hrect r0 (List.mem_cons_self _ _)
      set idxs := (List.range n).filter (fun j => decide (j ∉ M)) with hidxs
      have hcnt : ((((r0 :: A').map (ungapRow M)).headD []).length) = idxs.length := by
        simp only [List.map_cons, List.headD_cons]
        rw [ungapRow_length, hr0len, countCellsN_start M n h0]
      have hmerged : mergesOf ((r0 :: A').map (ungapRow M)) ls p = [] := by
        rw [mergesOf]
        apply List.filter_eq_nil_iff.mpr
        intro i hi
        have hik : i < idxs.length := by
          rw [← hcnt]
          exact List.mem_range.mp hi
        have htrans := colRest_ungap_transfer (r0 :: A') ls p hrect hne h0 i hik
        have hci : idxs.getD i 0 ∈ idxs := getD_mem idxs i 0 hik
        have hcir : idxs.getD i 0 ∈ List.range n := (List.mem_filter.mp hci).1
        have hcim : idxs.getD i 0 ∉ M := by
          have := (List.mem_filter.mp hci).2
          simpa using this
        have hcond : mergeableB (r0 :: A') (pidxsOf ls p) (idxs.getD i 0) = false := by
          by_contra hcc
          apply hcim
          rw [hM, mergesOf]
          exact List.mem_filter.mpr ⟨hcir, Bool.not_eq_false _ |>.mp hcc⟩
        intro habs
        rw [show mergeableB ((r0 :: A').map (ungapRow M)) (pidxsOf ls p) i
              = mergeableB (r0 :: A') (pidxsOf ls p) (idxs.getD i 0) from ?_] at habs
        · rw [hcond] at habs
          exact Bool.noConfusion habs
        · simp only [mergeableB]
          rw [htrans]
      rw [hout, ungap_eq, if_pos hmerged]

/-- C7 counterexample.  The alignment `[["x","","-"],["x","y","z"]]` is
rectangular, but the merge is not idempotent on it: the empty cell is first
rewritten to a gap, which makes a new column mergeable on the second pass. -/
theorem C7_not_idempotent_with_empty_cell :
    (∀ r ∈ ([["x", "", "-"], ["x", "y", "z"]] : List (List String)),
      r.length = ([["x", "", "-"], ["x", "y", "z"]].headD []).length) ∧
      ungap (ungap [["x", "", "-"], ["x", "y", "z"]] ["A", "B"] "B") ["A", "B"] "B" ≠
        ungap [["x", "", "-"], ["x", "y", "z"]] ["A", "B"] "B" := by
  exact ⟨by decide, by decide⟩

/-- C7 witness. -/
theorem C7_ungap_idempotent_witness :
    (∀ r ∈ ([["x", "-"], ["x", "y"]] : List (List String)),
      r.length = ([["x", "-"], ["x", "y"]].headD []).length) ∧
      (∀ r ∈ ([["x", "-"], ["x", "y"]] : List (List String)), ∀ c ∈ r, c ≠ "") ∧
      ungap (ungap [["x", "-"], ["x", "y"]] ["A", "B"] "B") ["A", "B"] "B" =
        ungap [["x", "-"], ["x", "y"]] ["A", "B"] "B" := by
  refine ⟨by decide, by decide, ?_⟩
  exact C7_ungap_idempotent [["x", "-"], ["x", "y"]] ["A", "B"] "B" (by decide) (by decide)

/-! ### The sound alphabet (Baseline.fit lines 404-419, Baseline.predict lines 442-447) -/

theorem lookupA_updateA_self {α β : Type} [DecidableEq α] (l : List (α × β)) (k : α) (v : β) :
    lookupA (updateA l k v) k = some v := by
  induction l with
  | nil => simp [updateA, lookupA]
  | cons p rest ih =>
    by_cases h : p.1 = k
    · simp [updateA, h, lookupA]
    · simp [updateA, h, lookupA, ih]

theorem lookupA_updateA_ne {α β : Type} [DecidableEq α] (l : List (α × β)) (k k' : α) (v : β)
    (h : k' ≠ k) : lookupA (updateA l k' v) k = lookupA l k := by
  induction l with
  | nil => simp [updateA, lookupA, h]
  | cons p rest ih =>
    by_cases hp : p.1 = k'
    · simp [updateA, hp, lookupA, h]
    · simp only [updateA, if_neg hp, lookupA]
      by_cases hk : p.1 = k
      · rw [if_pos hk, if_pos hk]
      · rw [if_neg hk, if_neg hk, ih]

theorem mem_of_lookupA {α β : Type} [DecidableEq α] (l : List (α × β)) (k : α) (v : β)
    (h : lookupA l k = some v) : (k, v) ∈ l := by
  induction l with
  | nil => simp [lookupA] at h
  | cons p rest ih =>
    by_cases hp : p.1 = k
    · rw [lookupA, if_pos hp] at h
      have : p = (k, v) := by
        cases p
        simp at hp h
        simp [hp, h]
      rw [← this]
      exact List.mem_cons_self _ _
    · rw [lookupA, if_neg hp] at h
      exact List.mem_cons_of_mem _ (ih h)

/-- `dict(zip(ss, range(i, i+len(ss))))` as a recursion. -/
def baseAlphabet : Nat → List String → List (String × Nat)
  | _, [] => []
  | i, s :: rest => (s, i) :: baseAlphabet (i + 1) rest

theorem lookupA_baseAlphabet (s : String) :
    ∀ (ss : List String) (i : Nat), s ∈ ss →
    lookupA (baseAlphabet i ss) s = some (i + ss.indexOf s) := by
  intro ss
  induction ss with
  | nil => intro i h; simp at h
  | cons a rest ih =>
    intro i h
    by_cases ha : a = s
    · simp [baseAlphabet, lookupA, ha, List.indexOf_cons_self]
    · have hs : s ∈ rest := by
        rcases List.mem_cons.mp h with h | h
        · exact absurd h.symm ha
        · exact h
      rw [baseAlphabet, lookupA, if_neg ha, ih (i + 1) hs]
      rw [List.indexOf_cons_ne _ (by simpa using ha)]
      congr 1
      omega

theorem lookupA_baseAlphabet_none (s : String) :
    ∀ (ss : List String) (i : Nat), s ∉ ss → lookupA (baseAlphabet i ss) s = none := by
  intro ss
  induction ss with
  | nil => intro i _; rfl
  | cons a rest ih =>
    intro i h
    rw [baseAlphabet, lookupA,
      if_neg (fun ha => h (by rw [← ha]; exact List.mem_cons_self _ _))]
    exact ih (i + 1) (fun hs => h (List.mem_cons_of_mem _ hs))

theorem baseAlphabet_value_bounds (s : String) (v : Nat) :
    ∀ (ss : List String) (i : Nat), (s, v) ∈ baseAlphabet i ss →
    i ≤ v ∧ v < i + ss.length ∧ ss.getD (v - i) "" = s := by
  intro ss
  induction ss with
  | nil => intro i h; simp [baseAlphabet] at h
  | cons a rest ih =>
    intro i h
    rcases List.mem_cons.mp h with h | h
    · have h1 : s = a ∧ v = i := by
        have := Prod.mk.injEq s v a i ▸ h
        exact ⟨congrArg Prod.fst h, congrArg Prod.snd h⟩
      rcases h1 with ⟨hs, hv⟩
      subst hs hv
      refine ⟨Nat.le.refl, by simp, ?_⟩
      simp
    · rcases ih (i + 1) h with ⟨h1, h2, h3⟩
      refine ⟨by omega, by simp [List.length_cons]; omega, ?_⟩
      rw [show v - i = (v - (i + 1)) + 1 by omega, List.getD_cons_succ]
      exact h3

theorem mem_updateA_elim {α β : Type} [DecidableEq α] :
    ∀ (l : List (α × β)) (k : α) (v : β) (p : α × β),
    (l.map Prod.fst).Nodup → p ∈ updateA l k v → p = (k, v) ∨ (p ∈ l ∧ p.1 ≠ k) := by
  intro l
  induction l with
  | nil =>
    intro k v p _ h
    simp [updateA] at h
    exact Or.inl (by cases p; simp at h; simp [h])
  | cons q rest ih =>
    intro k v p hnd h
    have hndr : (rest.map Prod.fst).Nodup := (List.nodup_cons.mp hnd).2
    have hq1 : q.1 ∉ rest.map Prod.fst := (List.nodup_cons.mp hnd).1
    by_cases hq : q.1 = k
    · rw [updateA, if_pos hq] at h
      rcases List.mem_cons.mp h with h | h
      · exact Or.inl h
      · right
        refine ⟨List.mem_cons_of_mem _ h, ?_⟩
        intro hpk
        exact hq1 (List.mem_map.mpr ⟨p, h, by rw [hpk, hq]⟩)
    · rw [updateA, if_neg hq] at h
      rcases List.mem_cons.mp h with h | h
      · subst h
        exact Or.inr ⟨List.mem_cons_self _ _, hq⟩
      · rcases ih k v p hndr h with h | ⟨h1, h2⟩
        · exact Or.inl h
        · exact Or.inr ⟨List.mem_cons_of_mem _ h1, h2⟩

theorem mem_updateA_of_ne {α β : Type} [DecidableEq α] :
    ∀ (l : List (α × β)) (k : α) (v : β) (p : α × β),
    p ∈ l → p.1 ≠ k → p ∈ updateA l k v := by
  intro l
  induction l with
  | nil => intro k v p h _; simp at h
  | cons q rest ih =>
    intro k v p h hpk
    by_cases hq : q.1 = k
    · rw [updateA, if_pos hq]
      rcases List.mem_cons.mp h with h | h
      · exact absurd (h ▸ hq) hpk
      · exact List.mem_cons_of_mem _ h
    · rw [updateA, if_neg hq]
      rcases List.mem_cons.mp h with h | h
      · exact h ▸ List.mem_cons_self _ _
      · exact List.mem_cons_of_mem _ (ih k v p h hpk)

theorem self_mem_updateA {α β : Type} [DecidableEq α] :
    ∀ (l : List (α × β)) (k : α) (v : β), (k, v) ∈ updateA l k v := by
  intro l
  induction l with
  | nil => intro k v; simp [updateA]
  | cons q rest ih =>
    intro k v
    by_cases hq : q.1 = k
    · rw [updateA, if_pos hq]; exact List.mem_cons_self _ _
    · rw [updateA, if_neg hq]; exact List.mem_cons_of_mem _ (ih k v)

theorem keys_updateA_sub {α β : Type} [DecidableEq α] :
    ∀ (l : List (α × β)) (k : α) (v : β),
    ∀ a ∈ (updateA l k v).map Prod.fst, a = k ∨ a ∈ l.map Prod.fst := by
  intro l
  induction l with
  | nil => intro k v a h; simp [updateA] at h; exact Or.inl h
  | cons q rest ih =>
    intro k v a h
    by_cases hq : q.1 = k
    · rw [updateA, if_pos hq] at h
      rcases List.mem_map.mp h with ⟨p, hp, rfl⟩
      rcases List.mem_cons.mp hp with hp | hp
      · exact Or.inl (by rw [hp])
      · exact Or.inr (List.mem_map.mpr ⟨p, List.mem_cons_of_mem _ hp, rfl⟩)
    · rw [updateA, if_neg hq] at h
      rcases List.mem_map.mp h with ⟨p, hp, rfl⟩
      rcases List.mem_cons.mp hp with hp | hp
      · exact Or.inr (List.mem_map.mpr ⟨p, hp ▸ List.mem_cons_self _ _, by rw [hp]⟩)
      · rcases ih k v p.1 (List.mem_map.mpr ⟨p, hp, rfl⟩) with h | h
        · exact Or.inl h
        · exact Or.inr (List.mem_map.mpr
            (by rcases List.mem_map.mp h with ⟨p', hp', he⟩
                exact ⟨p', List.mem_cons_of_mem _ hp', he⟩))

theorem keys_updateA_nodup {α β : Type} [DecidableEq α] :
    ∀ (l : List (α × β)) (k : α) (v : β),
    (l.map Prod.fst).Nodup → ((updateA l k v).map Prod.fst).Nodup := by
  intro l
  induction l with
  | nil => intro k v _; simp [updateA]
  | cons q rest ih =>
    intro k v hnd
    have hndr : (rest.map Prod.fst).Nodup := (List.nodup_cons.mp hnd).2
    have hq1 : q.1 ∉ rest.map Prod.fst := (List.nodup_cons.mp hnd).1
    by_cases hq : q.1 = k
    · rw [updateA, if_pos hq]
      simp only [List.map_cons]
      exact List.nodup_cons.mpr ⟨by rw [← hq]; exact hq1, hndr⟩
    · rw [updateA, if_neg hq]
      simp only [List.map_cons]
      refine List.nodup_cons.mpr ⟨?_, ih k v hndr⟩
      intro habs
      rcases keys_updateA_sub rest k v q.1 habs with h | h
      · exact hq h
      · exact hq1 h

theorem lookupA_invertAux_none {α β : Type} [DecidableEq β] :
    ∀ (l : List (α × β)) (acc : List (β × α)) (v : β),
    (∀ p ∈ l, p.2 ≠ v) → lookupA (invertAux acc l) v = lookupA acc v := by
  intro l
  induction l with
  | nil => intro acc v _; rfl
  | cons q rest ih =>
    intro acc v h
    rcases q with ⟨k0, v0⟩
    rw [invertAux, ih _ v (fun p hp => h p (List.mem_cons_of_mem _ hp))]
    exact lookupA_updateA_ne acc v v0 k0 (h (k0, v0) (List.mem_cons_self _ _))

theorem lookupA_invertAux_mem {α β : Type} [DecidableEq β] :
    ∀ (l : List (α × β)) (acc : List (β × α)) (k : α) (v : β),
    (k, v) ∈ l → (∀ p ∈ l, p.2 = v → p.1 = k) →
    lookupA (invertAux acc l) v = some k := by
  intro l
  induction l with
  | nil => intro acc k v hm _; simp at hm
  | cons q rest ih =>
    intro acc k v hm hu
    rcases q with ⟨k0, v0⟩
    rw [invertAux]
    by_cases hrest : ∃ p ∈ rest, p.2 = v
    · rcases hrest with ⟨p0, hp0, hpv⟩
      have hpk : p0.1 = k := hu p0 (List.mem_cons_of_mem _ hp0) hpv
      have hkv : (k, v) ∈ rest := by
        have : p0 = (k, v) := by
          rcases p0 with ⟨a, b⟩
          simp only at hpk hpv
          rw [hpk, hpv]
        rw [← this]
        exact hp0
      exact ih _ k v hkv (fun p hp hv => hu p (List.mem_cons_of_mem _ hp) hv)
    · push_neg at hrest
      rw [lookupA_invertAux_none rest _ v hrest]
      rcases List.mem_cons.mp hm with hm | hm
      · have h1 : k0 = k ∧ v0 = v := by
          have ha := congrArg Prod.fst hm
          have hb := congrArg Prod.snd hm
          simp only at ha hb
          exact ⟨ha.symm, hb.symm⟩
        rw [h1.1, h1.2]
        exact lookupA_updateA_self acc v k
      · exact absurd rfl (hrest (k, v) hm)

theorem lookupA_invertA_mem {α β : Type} [DecidableEq β] (l : List (α × β)) (k : α) (v : β)
    (hm : (k, v) ∈ l) (hu : ∀ p ∈ l, p.2 = v → p.1 = k) :
    lookupA (invertA l) v = some k :=
  lookupA_invertAux_mem l [] k v hm hu

theorem lookupA_invertA_none {α β : Type} [DecidableEq β] (l : List (α × β)) (v : β)
    (h : ∀ p ∈ l, p.2 ≠ v) : lookupA (invertA l) v = none :=
  lookupA_invertAux_none l [] v h

/-- Lexicographic comparison of code-point lists, as Python compares
strings. -/
def charListLe : List Char → List Char → Bool
  | [], _ => true
  | _ :: _, [] => false
  | a :: as0, b :: bs =>
    if a.toNat < b.toNat then true
    else if b.toNat < a.toNat then false
    else charListLe as0 bs

/-- Python's `<=` on strings: code-point lexicographic order. -/
def pyLe (a b : String) : Bool := charListLe a.data b.data

theorem charListLe_total : ∀ x y : List Char, charListLe x y = true ∨ charListLe y x = true := by
  intro x
  induction x with
  | nil => intro y; exact Or.inl rfl
  | cons a as0 ih =>
    intro y
    cases y with
    | nil => exact Or.inr rfl
    | cons b bs =>
      by_cases h1 : a.toNat < b.toNat
      · exact Or.inl (by simp [charListLe, h1])
      · by_cases h2 : b.toNat < a.toNat
        · exact Or.inr (by simp [charListLe, h2])
        · rcases ih bs with h | h
          · exact Or.inl (by simp [charListLe, h1, h2, h])
          · exact Or.inr (by simp [charListLe, h1, h2, h])

theorem charListLe_trans : ∀ x y z : List Char,
    charListLe x y = true → charListLe y z = true → charListLe x z = true := by
  intro x
  induction x with
  | nil => intro y z _ _; rfl
  | cons a as0 ih =>
    intro y z h1 h2
    cases y with
    | nil => simp [charListLe] at h1
    | cons b bs =>
      cases z with
      | nil => simp [charListLe] at h2
      | cons c cs =>
        simp only [charListLe] at h1 h2 ⊢
        by_cases hab : a.toNat < b.toNat
        · by_cases hbc : b.toNat < c.toNat
          · rw [if_pos (show a.toNat < c.toNat by omega)]
          · by_cases hcb : c.toNat < b.toNat
            · simp [hbc, hcb] at h2
            · rw [if_pos (show a.toNat < c.toNat by omega)]
        · by_cases hba : b.toNat < a.toNat
          · simp [hab, hba] at h1
          · by_cases hbc : b.toNat < c.toNat
            · rw [if_pos (show a.toNat < c.toNat by omega)]
            · by_cases hcb : c.toNat < b.toNat
              · simp [hbc, hcb] at h2
              · rw [if_neg (show ¬ a.toNat < c.toNat by omega),
                  if_neg (show ¬ c.toNat < a.toNat by omega)]
                simp [hab, hba] at h1
                simp [hbc, hcb] at h2
                exact ih bs cs h1 h2

theorem charListLe_antisymm : ∀ x y : List Char,
    charListLe x y = true → charListLe y x = true → x = y := by
  intro x
  induction x with
  | nil =>
    intro y _ h2
    cases y with
    | nil => rfl
    | cons b bs => simp [charListLe] at h2
  | cons a as0 ih =>
    intro y h1 h2
    cases y with
    | nil => simp [charListLe] at h1
    | cons b bs =>
      simp only [charListLe] at h1 h2
      by_cases hab : a.toNat < b.toNat
      · simp [hab, show ¬ b.toNat < a.toNat by omega] at h2
      · by_cases hba : b.toNat < a.toNat
        · simp [hab, hba] at h1
        · have hvv : a = b := by
            have hnat : a.toNat = b.toNat := by omega
            have := congrArg Char.ofNat hnat
            rwa [Char.ofNat_toNat, Char.ofNat_toNat] at this
          simp [hab, hba] at h1 h2
          rw [hvv, ih bs h1 h2]

instance : IsTotal String (fun a b => pyLe a b = true) :=
  ⟨fun a b => charListLe_total a.data b.data⟩

instance : IsTrans String (fun a b => pyLe a b = true) :=
  ⟨fun a b c h1 h2 => charListLe_trans a.data b.data c.data h1 h2⟩

instance : IsAntisymm String (fun a b => pyLe a b = true) :=
  ⟨fun a b h1 h2 => by
    cases a with
    | mk da =>
      cases b with
      | mk db =>
        simp only [pyLe] at h1 h2
        exact congrArg String.mk (charListLe_antisymm da db h1 h2)⟩

/-- `sorted(sounds)` where `sounds` is a Python set: deduplicate, then sort
in code-point lexicographic order. -/
def sortedSounds (sounds : List String) : List String :=
  List.insertionSort (fun a b => pyLe a b = true) sounds.dedup

/-- `self.sound2idx = dict(zip(sorted(sounds), range(2, len(sounds)+2)))`
followed by `self.sound2idx[self.gap] = 1` and
`self.sound2idx[self.missing] = 0` (gap `"-"`, missing `"Ø"`). -/
def mkSound2idx (sounds : List String) : List (String × Nat) :=
  updateA (updateA (baseAlphabet 2 (sortedSounds sounds)) "-" 1) "Ø" 0

/-- `self.idx2sound = {v: k for k, v in self.sound2idx.items()}`. -/
def mkIdx2sound (sounds : List String) : List (Nat × String) :=
  invertA (mkSound2idx sounds)

/-- `self.sound2idx.get(char, 0)` (Baseline.predict line 445). -/
def encodeSound (sounds : List String) (s : String) : Nat :=
  (lookupA (mkSound2idx sounds) s).getD 0

/-- `self.idx2sound.get(idx, unknown)` with the default `unknown="?"`
(Baseline.predict line 446). -/
def decodeSound (sounds : List String) (i : Nat) : String :=
  (lookupA (mkIdx2sound sounds) i).getD "?"

theorem baseAlphabet_keys : ∀ (ss : List String) (i : Nat),
    (baseAlphabet i ss).map Prod.fst = ss := by
  intro ss
  induction ss with
  | nil => intro i; rfl
  | cons a rest ih => intro i; simp [baseAlphabet, ih]

theorem sortedSounds_nodup (sounds : List String) : (sortedSounds sounds).Nodup :=
  ((List.perm_insertionSort _ _).nodup_iff).mpr (List.nodup_dedup sounds)

theorem mem_sortedSounds {sounds : List String} {s : String} :
    s ∈ sortedSounds sounds ↔ s ∈ sounds := by
  unfold sortedSounds
  rw [List.Perm.mem_iff (List.perm_insertionSort _ _), List.mem_dedup]

theorem mem_mkSound2idx_elim (sounds : List String) (p : String × Nat)
    (hp : p ∈ mkSound2idx sounds) :
    p = ("Ø", 0) ∨ p = ("-", 1) ∨
      (p ∈ baseAlphabet 2 (sortedSounds sounds) ∧ p.1 ≠ "-" ∧ p.1 ≠ "Ø") := by
  have hnd0 : ((baseAlphabet 2 (sortedSounds sounds)).map Prod.fst).Nodup := by
    rw [baseAlphabet_keys]
    exact sortedSounds_nodup sounds
  have hnd1 := keys_updateA_nodup (baseAlphabet 2 (sortedSounds sounds)) "-" 1 hnd0
  rcases mem_updateA_elim _ "Ø" 0 p hnd1 hp with h | ⟨h1, h2⟩
  · exact Or.inl h
  · rcases mem_updateA_elim _ "-" 1 p hnd0 h1 with h | ⟨h3, h4⟩
    · exact Or.inr (Or.inl h)
    · exact Or.inr (Or.inr ⟨h3, h4, h2⟩)

theorem mkSound2idx_value_inj (sounds : List String) (p q : String × Nat)
    (hp : p ∈ mkSound2idx sounds) (hq : q ∈ mkSound2idx sounds) (hv : p.2 = q.2) :
    p.1 = q.1 := by
  have hbase : ∀ r : String × Nat, r ∈ baseAlphabet 2 (sortedSounds sounds) →
      2 ≤ r.2 ∧ (sortedSounds sounds).getD (r.2 - 2) "" = r.1 := by
    intro r hr
    have := baseAlphabet_value_bounds r.1 r.2 (sortedSounds sounds) 2 (by
      rcases r with ⟨a, b⟩; exact hr)
    exact ⟨this.1, this.2.2⟩
  rcases mem_mkSound2idx_elim sounds p hp with h1 | h1 | ⟨h1, _, _⟩ <;>
    rcases mem_mkSound2idx_elim sounds q hq with h2 | h2 | ⟨h2, _, _⟩
  · simp [h1, h2]
  · exfalso; rw [h1, h2] at hv; simp at hv
  · exfalso; have h3 := (hbase q h2).1; rw [h1] at hv; simp at hv; omega
  · exfalso; rw [h1, h2] at hv; simp at hv
  · simp [h1, h2]
  · exfalso; have h3 := (hbase q h2).1; rw [h1] at hv; simp at hv; omega
  · exfalso; have h3 := (hbase p h1).1; rw [h2] at hv; simp at hv; omega
  · exfalso; have h3 := (hbase p h1).1; rw [h2] at hv; simp at hv; omega
  · rw [← (hbase p h1).2, ← (hbase q h2).2, hv]

/-- C8.  Under the fitted alphabet, decode after encode is the identity on
every symbol of the training corpus; a symbol unseen in training (other than
the reserved gap and missing symbols, which always carry indices 1 and 0)
encodes to the missing-sentinel index 0, never an error; and an index with no
assigned symbol decodes to the unknown-output sentinel `"?"`. -/
theorem C8_alphabet_round_trip (sounds : List String) :
    (∀ s ∈ sounds, decodeSound sounds (encodeSound sounds s) = s) ∧
      (∀ s, s ∉ sounds → s ≠ "-" → s ≠ "Ø" → encodeSound sounds s = 0) ∧
      (∀ i, (∀ p ∈ mkSound2idx sounds, p.2 ≠ i) → decodeSound sounds i = "?") := by
  refine ⟨?_, ?_, ?_⟩
  · intro s hs
    have hsome : ∃ v, lookupA (mkSound2idx sounds) s = some v := by
      by_cases h1 : s = "Ø"
      · exact ⟨0, by rw [h1]; exact lookupA_updateA_self _ _ _⟩
      · by_cases h2 : s = "-"
        · refine ⟨1, ?_⟩
          simp only [mkSound2idx]
          rw [h2, lookupA_updateA_ne _ _ _ _ (by decide)]
          exact lookupA_updateA_self _ _ _
        · refine ⟨2 + (sortedSounds sounds).indexOf s, ?_⟩
          simp only [mkSound2idx]
          rw [lookupA_updateA_ne _ _ _ _ (fun h => h1 h.symm),
            lookupA_updateA_ne _ _ _ _ (fun h => h2 h.symm)]
          exact lookupA_baseAlphabet s _ 2 (mem_sortedSounds.mpr hs)
    rcases hsome with ⟨v, hv⟩
    rw [encodeSound, hv, Option.getD_some, decodeSound, mkIdx2sound]
    rw [lookupA_invertA_mem _ s v (mem_of_lookupA _ _ _ hv) ?_]
    · rfl
    · intro p hp hpv
      exact mkSound2idx_value_inj sounds p (s, v) hp (mem_of_lookupA _ _ _ hv) hpv
  · intro s h1 h2 h3
    rw [encodeSound]
    simp only [mkSound2idx]
    rw [lookupA_updateA_ne _ _ _ _ (fun h => h3 h.symm),
      lookupA_updateA_ne _ _ _ _ (fun h => h2 h.symm)]
    rw [lookupA_baseAlphabet_none s _ 2 (fun hs => h1 (mem_sortedSounds.mp hs))]
    rfl
  · intro i h
    rw [decodeSound, mkIdx2sound, lookupA_invertA_none _ _ h]
    rfl

/-- C8 witness. -/
theorem C8_alphabet_round_trip_witness :
    decodeSound ["b", "a"] (encodeSound ["b", "a"] "a") = "a" ∧
      encodeSound ["b", "a"] "x" = 0 ∧ decodeSound ["b", "a"] 9 = "?" :=
  ⟨(C8_alphabet_round_trip ["b", "a"]).1 "a" (by decide),
    (C8_alphabet_round_trip ["b", "a"]).2.1 "x" (by decide) (by decide) (by decide),
    (C8_alphabet_round_trip ["b", "a"]).2.2 9 (by decide)⟩

/-- C5 (amended).  The fitted alphabet maps the missing sentinel to 0 and the
gap to 1, and every other observed symbol `s` to `2 +` the rank of `s` in the
lexicographic sort of all distinct observed symbols (including the gap and the
missing sentinel when they were observed, whose overridden slots then stay
unused); the assignment is independent of encounter order.  The claimed
indices `2..N+1` over the other symbols alone are obtained exactly when
neither the gap nor the missing sentinel occurs among the observed symbols. -/
theorem C5_alphabet_assignment (sounds : List String) :
    lookupA (mkSound2idx sounds) "Ø" = some 0 ∧
      lookupA (mkSound2idx sounds) "-" = some 1 ∧
      (∀ s ∈ sounds, s ≠ "-" → s ≠ "Ø" →
        lookupA (mkSound2idx sounds) s = some (2 + (sortedSounds sounds).indexOf s)) ∧
      (∀ sounds' : List String, sounds.Perm sounds' →
        mkSound2idx sounds = mkSound2idx sounds') := by
  refine ⟨lookupA_updateA_self _ _ _, ?_, ?_, ?_⟩
  · simp only [mkSound2idx]
    rw [lookupA_updateA_ne _ _ _ _ (by decide)]
    exact lookupA_updateA_self _ _ _
  · intro s hs h2 h3
    simp only [mkSound2idx]
    rw [lookupA_updateA_ne _ _ _ _ (fun h => h3 h.symm),
      lookupA_updateA_ne _ _ _ _ (fun h => h2 h.symm)]
    exact lookupA_baseAlphabet s _ 2 (mem_sortedSounds.mpr hs)
  · intro sounds' hperm
    have hp2 : (sortedSounds sounds).Perm (sortedSounds sounds') :=
      (List.perm_insertionSort _ _).trans
        ((hperm.dedup).trans (List.perm_insertionSort _ _).symm)
    have hss : sortedSounds sounds = sortedSounds sounds' :=
      List.eq_of_perm_of_sorted hp2 (List.sorted_insertionSort _ _)
        (List.sorted_insertionSort _ _)
    simp only [mkSound2idx, hss]

/-- C5 witness. -/
theorem C5_alphabet_assignment_witness :
    lookupA (mkSound2idx ["b", "a"]) "a" = some 2 ∧
      mkSound2idx ["b", "a"] = mkSound2idx ["a", "b"] := by
  constructor
  · have h := (C5_alphabet_assignment ["b", "a"]).2.2.1 "a" (by decide) (by decide) (by decide)
    rw [h]
    decide
  · exact (C5_alphabet_assignment ["b", "a"]).2.2.2 ["a", "b"] (by decide)

/-! ### CorPaRClassifier (sigtypst2022.py lines 216-323) -/

/-- `compatible(ptA, ptB)`: positionwise match/mismatch counts over the
zipped tuples, skipping positions where either side is the missing value 0
(`if not a or not b`). -/
def compatibleCnt : List Nat → List Nat → Nat × Nat
  | a :: as0, b :: bs =>
    let r := compatibleCnt as0 bs
    if a = 0 ∨ b = 0 then r
    else if a = b then (r.1 + 1, r.2) else (r.1, r.2 + 1)
  | _, _ => (0, 0)

/-- `consensus(nodes)`: per position, the first non-missing value over the
clique members, else the missing value 0. -/
def consensusT (nodes : List (List Nat)) : List Nat :=
  (List.range (nodes.headD []).length).map (fun i =>
    ((nodes.map (fun nd => nd.getD i 0)).find? (fun v => v != 0)).getD 0)

/-- `P[tuple(row + [y[i]])] += [i]`: group identical (pattern, target)
tuples, remembering the occurrence indices. -/
def groupP (X : List (List Nat)) (y : List Nat) : List (List Nat × List Nat) :=
  ((X.zip y).enum).foldl
    (fun acc p => alterA acc (p.2.1 ++ [p.2.2]) (fun o => o.getD [] ++ [p.1])) []

/-- `itertools.combinations(l, r=2)` in enumeration order. -/
def pairsOf {α : Type} : List α → List (α × α)
  | [] => []
  | x :: xs => (xs.map (fun z => (x, z))) ++ pairsOf xs

/-- The compatibility graph: nodes carry the `freq` attribute (which the
classifier never reads back), edges carry the match count as weight. -/
structure CGraph where
  nodes : List (List Nat × Nat)
  edges : List (List Nat × List Nat × Nat)
deriving DecidableEq

/-- The graph-building loop of `fit`: for every unordered pair of distinct
tuples, add an edge (inserting absent endpoints) when
`not mismatch and match >= self.threshold`. -/
def corparGraph (X : List (List Nat)) (y : List Nat) (threshold : Nat) : CGraph :=
  (pairsOf (groupP X y)).foldl
    (fun G pq =>
      let mm := compatibleCnt pq.1.1 pq.2.1
      if mm.2 = 0 ∧ threshold ≤ mm.1 then
        let G1 := if (G.nodes.map Prod.fst).contains pq.1.1 then G
          else CGraph.mk (G.nodes ++ [(pq.1.1, pq.1.2.length)]) G.edges
        let G2 := if (G1.nodes.map Prod.fst).contains pq.2.1 then G1
          else CGraph.mk (G1.nodes ++ [(pq.2.1, pq.2.2.length)]) G1.edges
        CGraph.mk G2.nodes (G2.edges ++ [(pq.1.1, pq.2.1, mm.1)])
      else G)
    (CGraph.mk [] [])

def adjacentB (G : CGraph) (a b : List Nat) : Bool :=
  G.edges.any (fun e => (e.1 == a && e.2.1 == b) || (e.1 == b && e.2.1 == a))

def isCliqueB (G : CGraph) (c : List (List Nat)) : Bool :=
  (pairsOf c).all (fun pq => adjacentB G pq.1 pq.2)

def isMaximalB (G : CGraph) (c : List (List Nat)) : Bool :=
  !(G.nodes.any (fun nd => !(c.contains nd.1) && c.all (fun u => adjacentB G u nd.1)))

/-- Modelled from the spec: `networkx.find_cliques` is an external
collaborator; the spec mandates the complete enumeration of the maximal
cliques ("clique enumeration must be complete, not sampled").  It is
modelled as filtering the sublists of the node list; the enumeration order
of the library routine is implementation-defined (hash-based set iteration),
so order-sensitive statements take the enumeration as an explicit argument
(`corparFitWith`). -/
def maximalCliquesOf (G : CGraph) : List (List (List Nat)) :=
  (G.nodes.map Prod.fst).sublists.filter
    (fun c => !c.isEmpty && isCliqueB G c && isMaximalB G c)

/-- `sorted(l, key=lambda p: p[1], reverse=True)[0]`: Python's sort is
stable, so the head is the earliest entry with the maximal key. -/
def bestByDesc {α β : Type} [LinearOrder β] (l : List (α × β)) : Option α :=
  ((List.insertionSort (fun x y : α × β => y.2 ≤ x.2) l).head?).map Prod.fst

/-- One step of `self.patterns[cons[:-1]][cons[-1]] = len(nodes)`. -/
def stepDR (pats : List (List Nat × List (Nat × Nat))) (nodes : List (List Nat)) :
    List (List Nat × List (Nat × Nat)) :=
  let cons := consensusT nodes
  alterA pats cons.dropLast (fun o => updateA (o.getD []) (cons.getLastD 0) nodes.length)

theorem stepDR_eq (pats : List (List Nat × List (Nat × Nat))) (nodes : List (List Nat)) :
    stepDR pats nodes =
      alterA pats (consensusT nodes).dropLast
        (fun o => updateA (o.getD []) ((consensusT nodes).getLastD 0) nodes.length) := rfl

/-- `self.patterns[cons[:-1]][cons[-1]] = len(nodes)` over the enumerated
cliques. -/
def directRules (cliques : List (List (List Nat))) : List (List Nat × List (Nat × Nat)) :=
  cliques.foldl stepDR []

/-- `self.lookup[node[:-1]][cons[:-1]] += len(nodes)` over the enumerated
cliques and their members. -/
def lookupTable (cliques : List (List (List Nat))) :
    List (List Nat × List (List Nat × Nat)) :=
  cliques.foldl
    (fun lk nodes =>
      let cons := consensusT nodes
      nodes.foldl
        (fun lk nd =>
          alterA lk nd.dropLast
            (fun o => alterA (o.getD []) cons.dropLast (fun w => w.getD 0 + nodes.length)))
        lk)
    []

/-- The two prediction-table loops of `fit`: first the direct rules
(consensus source pattern to best target), then the back-references
(observed source pattern to the target of its best consensus pattern). -/
def directPredictions (cliques : List (List (List Nat))) : List (List Nat × Nat) :=
  (directRules cliques).foldl
    (fun pr p => updateA pr p.1 ((bestByDesc p.2).getD 0)) []

def fitPredictions (cliques : List (List (List Nat))) : List (List Nat × Nat) :=
  (lookupTable cliques).foldl
    (fun pr p =>
      let ptnB := (bestByDesc p.2).getD []
      updateA pr p.1 ((lookupA pr ptnB).getD 0))
    (directPredictions cliques)

/-- `self.ptnlkp[i, ptn[i]] += [ptn]` over the pattern keys. -/
def fitPtnlkp (cliques : List (List (List Nat))) :
    List ((Nat × Nat) × List (List Nat)) :=
  (directRules cliques).foldl
    (fun lkp p =>
      (List.range p.1.length).foldl
        (fun lkp i =>
          if p.1.getD i 0 ≠ 0 then
            alterA lkp (i, p.1.getD i 0) (fun o => o.getD [] ++ [p.1])
          else lkp)
        lkp)
    []

structure CorparFit where
  graph : CGraph
  patterns : List (List Nat × List (Nat × Nat))
  lookup : List (List Nat × List (List Nat × Nat))
  predictions : List (List Nat × Nat)
  ptnlkp : List ((Nat × Nat) × List (List Nat))

/-- `CorPaRClassifier.fit` with the clique enumeration passed explicitly. -/
def corparFitWith (cliques : List (List (List Nat))) (X : List (List Nat)) (y : List Nat)
    (threshold : Nat) : CorparFit :=
  { graph := corparGraph X y threshold
    patterns := directRules cliques
    lookup := lookupTable cliques
    predictions := fitPredictions cliques
    ptnlkp := fitPtnlkp cliques }

/-- `CorPaRClassifier.fit`, with the clique enumeration computed from the
graph. -/
def corparFit (X : List (List Nat)) (y : List Nat) (threshold : Nat) : CorparFit :=
  corparFitWith (maximalCliquesOf (corparGraph X y threshold)) X y threshold

/-- One candidate of the fallback loop of `predict`: skip it if already
visited, else record it as visited and score it (`match + len(ptn)` for a
zero-mismatch match, `match - mismatch` when that is nonzero, no score
otherwise). -/
def gatherStep (ptn : List Nat) (st : List (List Nat) × List (List Nat × Int))
    (ptnB : List Nat) : List (List Nat) × List (List Nat × Int) :=
  if st.1.contains ptnB then st
  else
    let mm := compatibleCnt ptn ptnB
    if mm.1 ≠ 0 ∧ mm.2 = 0 then
      (st.1 ++ [ptnB], st.2 ++ [(ptnB, (mm.1 : Int) + (ptn.length : Int))])
    else if (mm.1 : Int) - (mm.2 : Int) ≠ 0 then
      (st.1 ++ [ptnB], st.2 ++ [(ptnB, (mm.1 : Int) - (mm.2 : Int))])
    else (st.1 ++ [ptnB], st.2)

/-- The fallback loop of `predict`: over the first `len(ptn) - 1` positions,
gather candidates from the fallback index. -/
def gatherCands (lkp : List ((Nat × Nat) × List (List Nat))) (ptn : List Nat) :
    List (List Nat) × List (List Nat × Int) :=
  (List.range (ptn.length - 1)).foldl
    (fun st i =>
      if ptn.getD i 0 ≠ 0 then
        ((lookupA lkp (i, ptn.getD i 0)).getD []).foldl (gatherStep ptn) st
      else st)
    ([], [])

/-- One row of `predict`: exact table hit, else fallback search with lazy
caching of the found target under the query pattern, else the missing
value 0. -/
def predictRow (lkp : List ((Nat × Nat) × List (List Nat)))
    (preds : List (List Nat × Nat)) (row : List Nat) :
    Nat × List (List Nat × Nat) :=
  match lookupA preds row with
  | some t => (t, preds)
  | none =>
    let cands := (gatherCands lkp row).2
    if cands = [] then (0, preds)
    else
      let best := (bestByDesc cands).getD []
      let t := (lookupA preds best).getD 0
      (t, updateA preds row t)

/-- `CorPaRClassifier.predict`: the prediction table is threaded through the
rows (the fallback results are cached into it). -/
def corparPredict (fit : CorparFit) (matrix : List (List Nat)) :
    List Nat × List (List Nat × Nat) :=
  matrix.foldl
    (fun acc row =>
      let r := predictRow fit.ptnlkp acc.2 row
      (acc.1 ++ [r.1], r.2))
    ([], fit.predictions)

/-- First maximum: fold keeping the current element unless a strictly larger
key appears (so the earliest element wins ties). -/
def firstMaxBy {α β : Type} [LinearOrder β] (key : α → β) (x : α) : List α → α
  | [] => x
  | ynext :: rest => firstMaxBy key (if key x < key ynext then ynext else x) rest

theorem firstMaxBy_key_le {α β : Type} [LinearOrder β] (key : α → β) :
    ∀ (l : List α) (x : α), key x ≤ key (firstMaxBy key x l) := by
  intro l
  induction l with
  | nil => intro x; exact le_refl _
  | cons z rest ih =>
    intro x
    rw [firstMaxBy]
    refine le_trans ?_ (ih _)
    by_cases h : key x < key z
    · rw [if_pos h]; exact le_of_lt h
    · rw [if_neg h]

theorem firstMaxBy_key_ge_mem {α β : Type} [LinearOrder β] (key : α → β) :
    ∀ (l : List α) (x : α), ∀ z ∈ l, key z ≤ key (firstMaxBy key x l) := by
  intro l
  induction l with
  | nil => intro x z hz; simp at hz
  | cons w rest ih =>
    intro x z hz
    rw [firstMaxBy]
    rcases List.mem_cons.mp hz with hz | hz
    · subst hz
      refine le_trans ?_ (firstMaxBy_key_le key rest _)
      by_cases h : key x < key z
      · rw [if_pos h]
      · rw [if_neg h]; exact le_of_not_lt h
    · exact ih _ z hz

theorem firstMaxBy_const {α β : Type} [LinearOrder β] (key : α → β) :
    ∀ (l : List α) (x : α), (∀ z ∈ l, key z ≤ key x) → firstMaxBy key x l = x := by
  intro l
  induction l with
  | nil => intro x _; rfl
  | cons z rest ih =>
    intro x h
    rw [firstMaxBy, if_neg (not_lt_of_le (h z (List.mem_cons_self _ _)))]
    exact ih x (fun w hw => h w (List.mem_cons_of_mem _ hw))

theorem firstMaxBy_switch {α β : Type} [LinearOrder β] (key : α → β) :
    ∀ (l : List α) (x y : α), key y ≤ key x → key x < key (firstMaxBy key y l) →
    firstMaxBy key x l = firstMaxBy key y l := by
  intro l
  induction l with
  | nil =>
    intro x y hyx hlt
    exact absurd hlt (not_lt_of_le hyx)
  | cons z rest ih =>
    intro x y hyx hlt
    rw [firstMaxBy] at hlt ⊢
    conv_rhs => rw [firstMaxBy]
    by_cases hxz : key x < key z
    · rw [if_pos hxz, if_pos (lt_of_le_of_lt hyx hxz)]
    · rw [if_neg hxz]
      by_cases hyz : key y < key z
      · rw [if_pos hyz] at hlt ⊢
        exact ih x z (le_of_not_lt hxz) hlt
      · rw [if_neg hyz] at hlt ⊢
        exact ih x y hyx hlt

/-- The head of the stable descending sort is the earliest entry with the
maximal key. -/
theorem sortDesc_head {α β : Type} [LinearOrder β] :
    ∀ (l : List (α × β)) (p : α × β),
    (List.insertionSort (fun x y : α × β => y.2 ≤ x.2) (p :: l)).head? =
      some (firstMaxBy Prod.snd p l) := by
  intro l
  induction l with
  | nil => intro p; rfl
  | cons q rest ih =>
    intro p
    have hIH := ih q
    rcases hsort : List.insertionSort (fun x y : α × β => y.2 ≤ x.2) (q :: rest) with
      _ | ⟨h, t⟩
    · rw [hsort] at hIH; simp at hIH
    · rw [hsort] at hIH
      have hh : h = firstMaxBy Prod.snd q rest := by
        simpa using hIH
      have hstep : List.insertionSort (fun x y : α × β => y.2 ≤ x.2) (p :: q :: rest) =
          List.orderedInsert (fun x y : α × β => y.2 ≤ x.2) p (h :: t) := by
        rw [List.insertionSort, hsort]
      rw [hstep, List.orderedInsert]
      by_cases hle : h.2 ≤ p.2
      · rw [if_pos hle]
        simp only [List.head?_cons, Option.some.injEq]
        rw [firstMaxBy]
        by_cases hpq : p.2 < q.2
        · exfalso
          have h1 : q.2 ≤ h.2 := by
            rw [hh]; exact firstMaxBy_key_le Prod.snd rest q
          exact absurd (lt_of_lt_of_le hpq (le_trans h1 hle)) (lt_irrefl _)
        · rw [if_neg hpq]
          refine (firstMaxBy_const Prod.snd rest p ?_).symm
          intro z hz
          refine le_trans ?_ hle
          rw [hh]
          exact firstMaxBy_key_ge_mem Prod.snd rest q z hz
      · rw [if_neg hle]
        simp only [List.head?_cons, Option.some.injEq]
        rw [firstMaxBy]
        by_cases hpq : p.2 < q.2
        · rw [if_pos hpq, hh]
        · rw [if_neg hpq, hh]
          exact (firstMaxBy_switch Prod.snd rest p q (le_of_not_lt hpq)
            (by rw [← hh]; exact lt_of_not_le hle)).symm

theorem bestByDesc_cons {α β : Type} [LinearOrder β] (l : List (α × β)) (p : α × β) :
    bestByDesc (p :: l) = some (firstMaxBy Prod.snd p l).1 := by
  rw [bestByDesc, sortDesc_head]
  rfl

/-- The claim's reading of the rule record: among the enumerated cliques
whose consensus source pattern is `s`, the target of the largest one, with
earlier-enumerated cliques winning ties. -/
def specLargestCliqueTarget (cliques : List (List (List Nat))) (s : List Nat) : Option Nat :=
  match cliques.filter (fun K => (consensusT K).dropLast == s) with
  | [] => none
  | K :: rest => some ((consensusT (firstMaxBy (fun c => c.length) K rest)).getLastD 0)

def sameSetB (a b : List (List Nat)) : Bool :=
  a.all (fun x => b.contains x) && b.all (fun x => a.contains x)

/-- A clique list is a valid enumeration of the maximal cliques of `G`:
every entry is a duplicate-free maximal clique over `G`'s nodes, every
maximal clique appears, and no clique is listed twice. -/
def validCliqueEnum (G : CGraph) (cliques : List (List (List Nat))) : Bool :=
  (cliques.all (fun c => !c.isEmpty && decide c.Nodup &&
      c.all (fun nd => (G.nodes.map Prod.fst).contains nd) &&
      isCliqueB G c && isMaximalB G c) &&
    (maximalCliquesOf G).all (fun c => cliques.any (fun c2 => sameSetB c c2))) &&
  (pairsOf cliques).all (fun pq => !sameSetB pq.1 pq.2)

theorem lookupA_alterA_self {α β : Type} [DecidableEq α] :
    ∀ (l : List (α × β)) (k : α) (f : Option β → β),
    lookupA (alterA l k f) k = some (f (lookupA l k)) := by
  intro l
  induction l with
  | nil => intro k f; simp [alterA, lookupA]
  | cons p rest ih =>
    intro k f
    by_cases hp : p.1 = k
    · simp [alterA, hp, lookupA]
    · simp [alterA, hp, lookupA, ih]

theorem lookupA_alterA_ne {α β : Type} [DecidableEq α] :
    ∀ (l : List (α × β)) (k k' : α) (f : Option β → β), k' ≠ k →
    lookupA (alterA l k' f) k = lookupA l k := by
  intro l
  induction l with
  | nil => intro k k' f h; simp [alterA, lookupA, h]
  | cons p rest ih =>
    intro k k' f h
    by_cases hp : p.1 = k'
    · simp only [alterA, if_pos hp, lookupA]
      rw [if_neg (fun hh => h (by cc)), if_neg (fun hh => h (by cc))]
    · simp only [alterA, if_neg hp, lookupA]
      by_cases hk : p.1 = k
      · rw [if_pos hk, if_pos hk]
      · rw [if_neg hk, if_neg hk, ih _ _ _ h]

theorem updateA_append {α β : Type} [DecidableEq α] :
    ∀ (l : List (α × β)) (k : α) (v : β), k ∉ l.map Prod.fst →
    updateA l k v = l ++ [(k, v)] := by
  intro l
  induction l with
  | nil => intro k v _; rfl
  | cons p rest ih =>
    intro k v h
    have hp : p.1 ≠ k := by
      intro hh
      exact h (List.mem_map.mpr ⟨p, List.mem_cons_self _ _, hh⟩)
    rw [updateA, if_neg hp, List.cons_append, ih k v (fun hh => h (List.mem_cons_of_mem _ hh))]

theorem foldl_updateA_fresh {α β : Type} [DecidableEq α] :
    ∀ (l : List (α × β)) (acc : List (α × β)),
    (∀ p ∈ l, p.1 ∉ acc.map Prod.fst) → (l.map Prod.fst).Nodup →
    List.foldl (fun d p => updateA d p.1 p.2) acc l = acc ++ l := by
  intro l
  induction l with
  | nil => intro acc _ _; simp
  | cons p rest ih =>
    intro acc hfresh hnd
    rw [List.foldl_cons, updateA_append acc p.1 p.2 (hfresh p (List.mem_cons_self _ _))]
    rw [ih (acc ++ [(p.1, p.2)]) ?_ (List.nodup_cons.mp hnd).2]
    · simp
    · intro q hq
      rw [List.map_append, List.mem_append]
      rintro (h | h)
      · exact hfresh q (List.mem_cons_of_mem _ hq) h
      · simp at h
        exact (List.nodup_cons.mp hnd).1 (h ▸ List.mem_map.mpr ⟨q, hq, rfl⟩)

theorem foldl_updateA_map {α β γ : Type} [DecidableEq α] (g : α × β → γ) :
    ∀ (l : List (α × β)) (acc : List (α × γ)),
    (∀ p ∈ l, p.1 ∉ acc.map Prod.fst) → (l.map Prod.fst).Nodup →
    List.foldl (fun pr p => updateA pr p.1 (g p)) acc l = acc ++ l.map (fun p => (p.1, g p)) := by
  intro l
  induction l with
  | nil => intro acc _ _; simp
  | cons p rest ih =>
    intro acc hfresh hnd
    rw [List.foldl_cons, updateA_append acc p.1 (g p) (hfresh p (List.mem_cons_self _ _))]
    rw [ih (acc ++ [(p.1, g p)]) ?_ (List.nodup_cons.mp hnd).2]
    · simp
    · intro q hq
      rw [List.map_append, List.mem_append]
      rintro (h | h)
      · exact hfresh q (List.mem_cons_of_mem _ hq) h
      · simp at h
        exact (List.nodup_cons.mp hnd).1 (h ▸ List.mem_map.mpr ⟨q, hq, rfl⟩)

theorem lookupA_map_snd {α β γ : Type} [DecidableEq α] (g : β → γ) :
    ∀ (l : List (α × β)) (k : α),
    lookupA (l.map (fun p => (p.1, g p.2))) k = (lookupA l k).map g := by
  intro l
  induction l with
  | nil => intro k; rfl
  | cons p rest ih =>
    intro k
    by_cases hp : p.1 = k
    · simp [lookupA, hp]
    · simp [lookupA, hp, ih]

theorem keys_alterA_sub {α β : Type} [DecidableEq α] :
    ∀ (l : List (α × β)) (k : α) (f : Option β → β),
    ∀ a ∈ (alterA l k f).map Prod.fst, a = k ∨ a ∈ l.map Prod.fst := by
  intro l
  induction l with
  | nil => intro k f a h; simp [alterA] at h; exact Or.inl h
  | cons q rest ih =>
    intro k f a h
    by_cases hq : q.1 = k
    · rw [alterA, if_pos hq] at h
      rcases List.mem_map.mp h with ⟨p, hp, rfl⟩
      rcases List.mem_cons.mp hp with hp | hp
      · exact Or.inl (by rw [hp])
      · exact Or.inr (List.mem_map.mpr ⟨p, List.mem_cons_of_mem _ hp, rfl⟩)
    · rw [alterA, if_neg hq] at h
      rcases List.mem_map.mp h with ⟨p, hp, rfl⟩
      rcases List.mem_cons.mp hp with hp | hp
      · exact Or.inr (List.mem_map.mpr ⟨p, hp ▸ List.mem_cons_self _ _, by rw [hp]⟩)
      · rcases ih k f p.1 (List.mem_map.mpr ⟨p, hp, rfl⟩) with h | h
        · exact Or.inl h
        · rcases List.mem_map.mp h with ⟨p', hp', he⟩
          exact Or.inr (List.mem_map.mpr ⟨p', List.mem_cons_of_mem _ hp', he⟩)

theorem keys_alterA_nodup {α β : Type} [DecidableEq α] :
    ∀ (l : List (α × β)) (k : α) (f : Option β → β),
    (l.map Prod.fst).Nodup → ((alterA l k f).map Prod.fst).Nodup := by
  intro l
  induction l with
  | nil => intro k f _; simp [alterA]
  | cons q rest ih =>
    intro k f hnd
    have hndr : (rest.map Prod.fst).Nodup := (List.nodup_cons.mp hnd).2
    have hq1 : q.1 ∉ rest.map Prod.fst := (List.nodup_cons.mp hnd).1
    by_cases hq : q.1 = k
    · rw [alterA, if_pos hq]
      simp only [List.map_cons]
      exact List.nodup_cons.mpr ⟨by rw [← hq]; exact hq1, hndr⟩
    · rw [alterA, if_neg hq]
      simp only [List.map_cons]
      refine List.nodup_cons.mpr ⟨?_, ih k f hndr⟩
      intro habs
      rcases keys_alterA_sub rest k f q.1 habs with h | h
      · exact hq h
      · exact hq1 h

/-- The per-source slice of the enumerated cliques: the (target, size) pairs
of the cliques whose consensus source pattern is `s`, in enumeration order. -/
def cliqueTgtSizes (cliques : List (List (List Nat))) (s : List Nat) : List (Nat × Nat) :=
  (cliques.filter (fun K => (consensusT K).dropLast == s)).map
    (fun K => ((consensusT K).getLastD 0, K.length))

theorem directRules_lookup (s : List Nat) :
    ∀ (cliques : List (List (List Nat))) (acc : List (List Nat × List (Nat × Nat))),
    lookupA (cliques.foldl stepDR acc) s =
      match lookupA acc s with
      | some d => some ((cliqueTgtSizes cliques s).foldl (fun d p => updateA d p.1 p.2) d)
      | none =>
          if cliqueTgtSizes cliques s = [] then none
          else some ((cliqueTgtSizes cliques s).foldl (fun d p => updateA d p.1 p.2) []) := by
  intro cliques
  induction cliques with
  | nil =>
    intro acc
    cases h : lookupA acc s <;> simp [cliqueTgtSizes, h]
  | cons K rest ih =>
    intro acc
    rw [List.foldl_cons, ih, stepDR_eq]
    by_cases hK : (consensusT K).dropLast = s
    · have hfil : cliqueTgtSizes (K :: rest) s =
          ((consensusT K).getLastD 0, K.length) :: cliqueTgtSizes rest s := by
        simp [cliqueTgtSizes, List.filter_cons, hK]
      rw [hfil, hK, lookupA_alterA_self]
      cases h : lookupA acc s <;> simp [h]
    · have hfil : cliqueTgtSizes (K :: rest) s = cliqueTgtSizes rest s := by
        simp [cliqueTgtSizes, List.filter_cons, hK]
      rw [hfil, lookupA_alterA_ne _ _ _ _ hK]

theorem directRules_keys_nodup :
    ∀ (cliques : List (List (List Nat))) (acc : List (List Nat × List (Nat × Nat))),
    (acc.map Prod.fst).Nodup →
    ((cliques.foldl stepDR acc).map Prod.fst).Nodup := by
  intro cliques
  induction cliques with
  | nil => intro acc h; exact h
  | cons K rest ih =>
    intro acc h
    rw [List.foldl_cons]
    refine ih _ ?_
    rw [stepDR_eq]
    exact keys_alterA_nodup _ _ _ h

theorem nodup_snd_of_const_fst {α β : Type} (a : α) :
    ∀ (l : List (α × β)), l.Nodup → (∀ p ∈ l, p.1 = a) → (l.map Prod.snd).Nodup := by
  intro l
  induction l with
  | nil => intro _ _; simp
  | cons p rest ih =>
    intro hnd hconst
    simp only [List.map_cons]
    refine List.nodup_cons.mpr ⟨?_, ih (List.nodup_cons.mp hnd).2
      (fun q hq => hconst q (List.mem_cons_of_mem _ hq))⟩
    intro habs
    rcases List.mem_map.mp habs with ⟨q, hq, he⟩
    have : q = p := by
      rcases q with ⟨q1, q2⟩
      rcases p with ⟨p1, p2⟩
      have h1 : q1 = a := hconst _ (List.mem_cons_of_mem _ hq)
      have h2 : p1 = a := hconst _ (List.mem_cons_self _ _)
      simp only at he
      rw [h1, h2, he]
    exact (List.nodup_cons.mp hnd).1 (this ▸ hq)

theorem firstMaxBy_map {α γ β : Type} [LinearOrder β] (f : α → γ) (key : α → β)
    (key2 : γ → β) (hkey : ∀ z, key2 (f z) = key z) :
    ∀ (l : List α) (x : α), firstMaxBy key2 (f x) (l.map f) = f (firstMaxBy key x l) := by
  intro l
  induction l with
  | nil => intro x; rfl
  | cons z rest ih =>
    intro x
    rw [List.map_cons, firstMaxBy, firstMaxBy, hkey, hkey]
    by_cases h : key x < key z
    · rw [if_pos h, if_pos h, ih]
    · rw [if_neg h, if_neg h, ih]

/-- C4 (amended).  When no two enumerated maximal cliques share the same
(consensus-source, consensus-target) pair, the direct rule recorded for a
consensus source pattern is the target of the largest clique producing it,
ties between equal-size cliques broken by enumeration order.  (In general the
recorded weight of each (source, target) pair is the size of the *last*
enumerated clique with that consensus, because the assignment
`patterns[cons[:-1]][cons[-1]] = len(nodes)` overwrites.) -/
theorem C4_largest_clique_rule (cliques : List (List (List Nat))) (s : List Nat)
    (hnd : (cliques.map (fun K =>
      ((consensusT K).dropLast, (consensusT K).getLastD 0))).Nodup) :
    lookupA (directPredictions cliques) s = specLargestCliqueTarget cliques s := by
  have hTnd : ((cliqueTgtSizes cliques s).map Prod.fst).Nodup := by
    have hsub : ((cliques.filter (fun K => (consensusT K).dropLast == s)).map
        (fun K => ((consensusT K).dropLast, (consensusT K).getLastD 0))).Sublist
        (cliques.map (fun K => ((consensusT K).dropLast, (consensusT K).getLastD 0))) :=
      List.Sublist.map _ (List.filter_sublist cliques)
    have hnd2 := hnd.sublist hsub
    have hconst : ∀ p ∈ (cliques.filter (fun K => (consensusT K).dropLast == s)).map
        (fun K => ((consensusT K).dropLast, (consensusT K).getLastD 0)), p.1 = s := by
      intro p hp
      rcases List.mem_map.mp hp with ⟨K, hK, rfl⟩
      have := List.of_mem_filter hK
      simpa using this
    have := nodup_snd_of_const_fst s _ hnd2 hconst
    simpa [cliqueTgtSizes, List.map_map, Function.comp] using this
  have hrules : lookupA (directRules cliques) s =
      (if cliqueTgtSizes cliques s = [] then none
        else some ((cliqueTgtSizes cliques s).foldl (fun d p => updateA d p.1 p.2) [])) := by
    have := directRules_lookup s cliques []
    simpa [directRules] using this
  have hpreds : lookupA (directPredictions cliques) s =
      (lookupA (directRules cliques) s).map (fun d => (bestByDesc d).getD 0) := by
    rw [directPredictions]
    rw [foldl_updateA_map (fun p => (bestByDesc p.2).getD 0) (directRules cliques) []
      (by simp) (by simpa [directRules] using directRules_keys_nodup cliques [] (by simp))]
    rw [List.nil_append]
    exact lookupA_map_snd (fun d => (bestByDesc d).getD 0) (directRules cliques) s
  rw [hpreds, hrules]
  by_cases hT : cliqueTgtSizes cliques s = []
  · have hfil : cliques.filter (fun K => (consensusT K).dropLast == s) = [] := by
      have := congrArg List.length hT
      simp [cliqueTgtSizes] at this
      exact List.length_eq_zero.mp (by simpa using this)
    rw [if_pos hT]
    simp [specLargestCliqueTarget, hfil]
  · rw [if_neg hT]
    rw [foldl_updateA_fresh _ [] (by simp) hTnd, List.nil_append]
    rcases hfil : cliques.filter (fun K => (consensusT K).dropLast == s) with _ | ⟨K, rest⟩
    · exact absurd (by simp [cliqueTgtSizes, hfil]) hT
    · have hTval : cliqueTgtSizes cliques s =
          ((consensusT K).getLastD 0, K.length) :: rest.map
            (fun K => ((consensusT K).getLastD 0, K.length)) := by
        simp [cliqueTgtSizes, hfil]
      rw [hTval]
      simp only [specLargestCliqueTarget, hfil, Option.map_some']
      rw [bestByDesc_cons]
      simp only [Option.getD_some]
      rw [firstMaxBy_map (fun K => ((consensusT K).getLastD 0, K.length))
        (fun c => c.length) Prod.snd (fun z => rfl) rest K]

/-- C4 witness. -/
theorem C4_largest_clique_rule_witness :
    (List.map (fun K => ((consensusT K).dropLast, (consensusT K).getLastD 0))
        [[[1, 2, 3], [0, 0, 3]], [[1, 2, 4], [0, 2, 4], [0, 0, 4]]]).Nodup ∧
      lookupA (directPredictions [[[1, 2, 3], [0, 0, 3]], [[1, 2, 4], [0, 2, 4], [0, 0, 4]]])
          [1, 2] =
        specLargestCliqueTarget [[[1, 2, 3], [0, 0, 3]], [[1, 2, 4], [0, 2, 4], [0, 0, 4]]]
          [1, 2] := by
  refine ⟨by decide, ?_⟩
  exact C4_largest_clique_rule _ [1, 2] (by decide)

/-- C4 counterexample.  A concrete training set whose compatibility graph has
exactly four maximal cliques; in the valid enumeration below, the clique of
size 3 with consensus ((1,2),3) is enumerated after the clique of size 4 with
consensus ((1,2),4), and a second, smaller clique with consensus ((1,2),4)
overwrites the recorded weight of target 4 down to 3.  The final table entry
for the source pattern (1,2) is then 3, although the largest clique that
produced (1,2) has target 4. -/
theorem C4_counterexample :
    validCliqueEnum
        (corparGraph [[1, 2], [0, 2], [0, 0], [1, 2], [0, 2], [0, 0], [1, 0], [1, 0]]
          [3, 3, 3, 4, 4, 4, 0, 4] 1)
        [[[1, 2, 3], [1, 0, 0]],
          [[1, 2, 4], [0, 2, 4], [0, 0, 4], [1, 0, 4]],
          [[1, 2, 3], [0, 2, 3], [0, 0, 3]],
          [[1, 2, 4], [1, 0, 0], [1, 0, 4]]] = true ∧
      specLargestCliqueTarget
          [[[1, 2, 3], [1, 0, 0]],
            [[1, 2, 4], [0, 2, 4], [0, 0, 4], [1, 0, 4]],
            [[1, 2, 3], [0, 2, 3], [0, 0, 3]],
            [[1, 2, 4], [1, 0, 0], [1, 0, 4]]] [1, 2] = some 4 ∧
      lookupA (directPredictions
          [[[1, 2, 3], [1, 0, 0]],
            [[1, 2, 4], [0, 2, 4], [0, 0, 4], [1, 0, 4]],
            [[1, 2, 3], [0, 2, 3], [0, 0, 3]],
            [[1, 2, 4], [1, 0, 0], [1, 0, 4]]]) [1, 2] = some 3 ∧
      lookupA (corparFitWith
          [[[1, 2, 3], [1, 0, 0]],
            [[1, 2, 4], [0, 2, 4], [0, 0, 4], [1, 0, 4]],
            [[1, 2, 3], [0, 2, 3], [0, 0, 3]],
            [[1, 2, 4], [1, 0, 0], [1, 0, 4]]]
          [[1, 2], [0, 2], [0, 0], [1, 2], [0, 2], [0, 0], [1, 0], [1, 0]]
          [3, 3, 3, 4, 4, 4, 0, 4] 1).predictions [1, 2] = some 3 ∧
      (some 3 : Option Nat) ≠ some 4 := by
  refine ⟨by decide, by decide, by decide, by decide, by decide⟩

theorem mem_key_alterA {α β : Type} [DecidableEq α] (l : List (α × β)) (k : α)
    (f : Option β → β) (p : α × β) (hp : p ∈ alterA l k f) :
    p.1 = k ∨ p.1 ∈ l.map Prod.fst :=
  keys_alterA_sub l k f p.1 (List.mem_map.mpr ⟨p, hp, rfl⟩)

theorem groupP_key_mem :
    ∀ (l : List (Nat × (List Nat × Nat))) (acc : List (List Nat × List Nat))
      (p : List Nat × List Nat),
    p ∈ l.foldl (fun acc q => alterA acc (q.2.1 ++ [q.2.2]) (fun o => o.getD [] ++ [q.1])) acc →
    p.1 ∈ acc.map Prod.fst ∨ p.1 ∈ l.map (fun q => q.2.1 ++ [q.2.2]) := by
  intro l
  induction l with
  | nil => intro acc p hp; exact Or.inl (List.mem_map.mpr ⟨p, hp, rfl⟩)
  | cons q rest ih =>
    intro acc p hp
    rw [List.foldl_cons] at hp
    rcases ih _ p hp with h | h
    · rcases keys_alterA_sub acc (q.2.1 ++ [q.2.2]) _ p.1 h with h | h
      · exact Or.inr (by rw [List.map_cons, h]; exact List.mem_cons_self _ _)
      · exact Or.inl h
    · exact Or.inr (List.mem_cons_of_mem _ h)

theorem groupP_keys_nodup :
    ∀ (l : List (Nat × (List Nat × Nat))) (acc : List (List Nat × List Nat)),
    (acc.map Prod.fst).Nodup →
    ((l.foldl (fun acc q =>
      alterA acc (q.2.1 ++ [q.2.2]) (fun o => o.getD [] ++ [q.1])) acc).map Prod.fst).Nodup := by
  intro l
  induction l with
  | nil => intro acc h; exact h
  | cons q rest ih =>
    intro acc h
    rw [List.foldl_cons]
    exact ih _ (keys_alterA_nodup _ _ _ h)

theorem pairsOf_eq_nil {α : Type} (l : List α) (h : l.length ≤ 1) : pairsOf l = [] := by
  cases l with
  | nil => rfl
  | cons x rest =>
    cases rest with
    | nil => rfl
    | cons z r2 => simp at h

theorem gatherCands_empty (ptn : List Nat) : gatherCands [] ptn = ([], []) := by
  rw [gatherCands]
  generalize List.range (ptn.length - 1) = idxs
  induction idxs with
  | nil => rfl
  | cons i rest ih =>
    rw [List.foldl_cons]
    by_cases h : ptn.getD i 0 ≠ 0
    · rw [if_pos h]
      exact ih
    · rw [if_neg h]
      exact ih

theorem corparPredict_empty_aux :
    ∀ (M : List (List Nat)) (outs : List Nat),
    M.foldl (fun acc row =>
        let r := predictRow [] acc.2 row
        (acc.1 ++ [r.1], r.2)) (outs, []) =
      (outs ++ M.map (fun _ => 0), []) := by
  intro M
  induction M with
  | nil => intro outs; simp
  | cons row rest ih =>
    intro outs
    rw [List.foldl_cons]
    have hrow : predictRow [] [] row = (0, []) := by
      rw [predictRow]
      simp only [lookupA]
      rw [gatherCands_empty]
      rfl
    simp only [hrow]
    rw [ih (outs ++ [0])]
    simp

/-- C9.  With fewer than two distinct (pattern, target) tuples (including no
training data at all), fit produces an empty graph and an empty prediction
table, and every subsequent predict call returns the missing value 0 for
every row while leaving the table empty (so repeated calls behave the
same). -/
theorem C9_degenerate_fit (X : List (List Nat)) (y : List Nat) (threshold : Nat)
    (hdist : ∀ t1 ∈ (X.zip y).map (fun p => p.1 ++ [p.2]),
      ∀ t2 ∈ (X.zip y).map (fun p => p.1 ++ [p.2]), t1 = t2) :
    (corparFit X y threshold).graph = CGraph.mk [] [] ∧
      (corparFit X y threshold).predictions = [] ∧
      ∀ M : List (List Nat),
        (corparPredict (corparFit X y threshold) M).1 = M.map (fun _ => 0) ∧
        (corparPredict (corparFit X y threshold) M).2 = [] := by
  have hkeys : ∀ p ∈ groupP X y, p.1 ∈ (X.zip y).map (fun p => p.1 ++ [p.2]) := by
    intro p hp
    rcases groupP_key_mem ((X.zip y).enum) [] p hp with h | h
    · simp at h
    · rcases List.mem_map.mp h with ⟨q, hq, he⟩
      refine List.mem_map.mpr ⟨q.2, ?_, he⟩
      have : q.2 ∈ ((X.zip y).enum).map Prod.snd := List.mem_map.mpr ⟨q, hq, rfl⟩
      rwa [List.enum_map_snd] at this
  have hnd : ((groupP X y).map Prod.fst).Nodup :=
    groupP_keys_nodup ((X.zip y).enum) [] (by simp)
  have hlen : (groupP X y).length ≤ 1 := by
    rcases hG : groupP X y with _ | ⟨p, rest⟩
    · simp
    · rcases rest with _ | ⟨p2, r2⟩
      · simp
      · exfalso
        rw [hG] at hnd hkeys
        have h1 : p.1 ∈ (X.zip y).map (fun p => p.1 ++ [p.2]) :=
          hkeys p (List.mem_cons_self _ _)
        have h2 : p2.1 ∈ (X.zip y).map (fun p => p.1 ++ [p.2]) :=
          hkeys p2 (List.mem_cons_of_mem _ (List.mem_cons_self _ _))
        have heq : p.1 = p2.1 := hdist p.1 h1 p2.1 h2
        simp only [List.map_cons] at hnd
        exact (List.nodup_cons.mp hnd).1
          (heq ▸ List.mem_cons_self p2.1 (r2.map Prod.fst))
  have hpairs : pairsOf (groupP X y) = [] := pairsOf_eq_nil _ hlen
  have hgraph : corparGraph X y threshold = CGraph.mk [] [] := by
    rw [corparGraph, hpairs]
    rfl
  have hcl : maximalCliquesOf (corparGraph X y threshold) = [] := by
    rw [hgraph]
    rfl
  have hfit : corparFit X y threshold = corparFitWith [] X y threshold := by
    rw [corparFit, hcl]
  refine ⟨by rw [hfit]; exact hgraph, by rw [hfit]; rfl, ?_⟩
  intro M
  have hM : corparPredict (corparFit X y threshold) M =
      (M.map (fun _ => 0), []) := by
    rw [hfit]
    show M.foldl (fun acc row =>
        let r := predictRow (corparFitWith [] X y threshold).ptnlkp acc.2 row
        (acc.1 ++ [r.1], r.2)) ([], (corparFitWith [] X y threshold).predictions) = _
    have h1 : (corparFitWith [] X y threshold).ptnlkp = [] := rfl
    have h2 : (corparFitWith [] X y threshold).predictions = [] := rfl
    rw [h1, h2]
    have := corparPredict_empty_aux M []
    simpa using this
  exact ⟨by rw [hM], by rw [hM]⟩

/-- C9 witness. -/
theorem C9_degenerate_fit_witness :
    (∀ t1 ∈ (([[1, 2], [1, 2]] : List (List Nat)).zip ([5, 5] : List Nat)).map
        (fun p => p.1 ++ [p.2]),
      ∀ t2 ∈ (([[1, 2], [1, 2]] : List (List Nat)).zip ([5, 5] : List Nat)).map
        (fun p => p.1 ++ [p.2]), t1 = t2) ∧
      (corparFit [[1, 2], [1, 2]] [5, 5] 1).graph = CGraph.mk [] [] ∧
      (corparPredict (corparFit [[1, 2], [1, 2]] [5, 5] 1) [[1, 2], [3, 0]]).1 = [0, 0] := by
  refine ⟨by decide, (C9_degenerate_fit [[1, 2], [1, 2]] [5, 5] 1 (by decide)).1, ?_⟩
  have h := ((C9_degenerate_fit [[1, 2], [1, 2]] [5, 5] 1 (by decide)).2.2
    [[1, 2], [3, 0]]).1
  simpa using h

/-- First-occurrence deduplication (the behavior of the `visited` set plus
in-order traversal in the fallback loop). -/
def dedupFirstFrom {α : Type} [BEq α] (acc : List α) (l : List α) : List α :=
  l.foldl (fun acc x => if acc.contains x then acc else acc ++ [x]) acc

theorem dedupFirstFrom_append {α : Type} [BEq α] (acc a b : List α) :
    dedupFirstFrom acc (a ++ b) = dedupFirstFrom (dedupFirstFrom acc a) b := by
  simp only [dedupFirstFrom, List.foldl_append]

/-- The claim-level score of a fallback candidate against the query:
zero-mismatch matches score `match + len(query)`, other candidates score
`match - mismatch`, and a candidate whose matches equal its mismatches gets
no score at all (the code drops it). -/
def fallbackScore (ptn cand : List Nat) : Option Int :=
  let mm := compatibleCnt ptn cand
  if mm.1 ≠ 0 ∧ mm.2 = 0 then some ((mm.1 : Int) + (ptn.length : Int))
  else if (mm.1 : Int) - (mm.2 : Int) ≠ 0 then some ((mm.1 : Int) - (mm.2 : Int))
  else none

theorem gatherStep_foldl (ptn : List Nat) :
    ∀ (l : List (List Nat)) (vis : List (List Nat)) (cands : List (List Nat × Int)),
    cands = vis.filterMap (fun c => (fallbackScore ptn c).map (fun v => (c, v))) →
    l.foldl (gatherStep ptn) (vis, cands) =
      (dedupFirstFrom vis l,
        (dedupFirstFrom vis l).filterMap
          (fun c => (fallbackScore ptn c).map (fun v => (c, v)))) := by
  intro l
  induction l with
  | nil =>
    intro vis cands hc
    rw [List.foldl_nil, hc]
    rfl
  | cons c rest ih =>
    intro vis cands hc
    rw [List.foldl_cons]
    by_cases hv : vis.contains c
    · have hstep : gatherStep ptn (vis, cands) c = (vis, cands) := by
        rw [gatherStep, if_pos hv]
      rw [hstep, ih vis cands hc]
      have hd : dedupFirstFrom vis (c :: rest) = dedupFirstFrom vis rest := by
        simp only [dedupFirstFrom, List.foldl_cons]
        rw [if_pos hv]
      rw [hd]
    · have hd : dedupFirstFrom vis (c :: rest) = dedupFirstFrom (vis ++ [c]) rest := by
        simp only [dedupFirstFrom, List.foldl_cons]
        rw [if_neg hv]
      rw [hd]
      have hnew : gatherStep ptn (vis, cands) c =
          (vis ++ [c], (vis ++ [c]).filterMap
            (fun c => (fallbackScore ptn c).map (fun v => (c, v)))) := by
        rw [gatherStep, if_neg hv, List.filterMap_append, ← hc]
        simp only [fallbackScore]
        by_cases h1 : (compatibleCnt ptn c).1 ≠ 0 ∧ (compatibleCnt ptn c).2 = 0
        · rw [if_pos h1]
          simp [h1]
        · rw [if_neg h1]
          by_cases h2 : ((compatibleCnt ptn c).1 : Int) - ((compatibleCnt ptn c).2 : Int) ≠ 0
          · rw [if_pos h2]
            simp [h1, h2]
          · rw [if_neg h2]
            simp [h1, h2]
      rw [hnew, ih (vis ++ [c]) _ rfl]

/-- All candidate patterns the fallback loop draws from the index, in
traversal order: positions `0 .. len(query)-2` left to right, the index
entry of each non-missing query position. -/
def totalGather (lkp : List ((Nat × Nat) × List (List Nat))) (ptn : List Nat)
    (positions : List Nat) : List (List Nat) :=
  positions.flatMap (fun i =>
    if ptn.getD i 0 ≠ 0 then (lookupA lkp (i, ptn.getD i 0)).getD [] else [])

theorem gatherCands_eq (lkp : List ((Nat × Nat) × List (List Nat))) (ptn : List Nat) :
    gatherCands lkp ptn =
      (dedupFirstFrom [] (totalGather lkp ptn (List.range (ptn.length - 1))),
        (dedupFirstFrom [] (totalGather lkp ptn (List.range (ptn.length - 1)))).filterMap
          (fun c => (fallbackScore ptn c).map (fun v => (c, v)))) := by
  rw [gatherCands]
  generalize List.range (ptn.length - 1) = idxs
  suffices h : ∀ (idxs : List Nat) (vis : List (List Nat)) (cands : List (List Nat × Int)),
      cands = vis.filterMap (fun c => (fallbackScore ptn c).map (fun v => (c, v))) →
      idxs.foldl (fun st i =>
        if ptn.getD i 0 ≠ 0 then
          ((lookupA lkp (i, ptn.getD i 0)).getD []).foldl (gatherStep ptn) st
        else st) (vis, cands) =
      (dedupFirstFrom vis (totalGather lkp ptn idxs),
        (dedupFirstFrom vis (totalGather lkp ptn idxs)).filterMap
          (fun c => (fallbackScore ptn c).map (fun v => (c, v)))) by
    exact h idxs [] [] rfl
  intro idxs
  induction idxs with
  | nil =>
    intro vis cands hc
    rw [List.foldl_nil, hc]
    rfl
  | cons i rest ih =>
    intro vis cands hc
    simp only [List.foldl_cons]
    have hbind : totalGather lkp ptn (i :: rest) =
        (if ptn.getD i 0 ≠ 0 then (lookupA lkp (i, ptn.getD i 0)).getD [] else []) ++
          totalGather lkp ptn rest := by
      rw [totalGather, List.flatMap_cons]
      rfl
    by_cases hp : ptn.getD i 0 ≠ 0
    · rw [if_pos hp, gatherStep_foldl ptn _ vis cands hc, ih _ _ rfl, hbind, if_pos hp,
        dedupFirstFrom_append]
    · rw [if_neg hp, ih vis cands hc, hbind, if_neg hp, List.nil_append]

/-- C6 (amended).  On an exact-table miss, the fallback gathers the index
entries of the non-missing query positions among the first `len(query) - 1`
positions only (the last position is never consulted), visits each candidate
once, scores zero-mismatch candidates by `match + len(query)` and the others
by `match - mismatch` while dropping candidates whose matches equal their
mismatches, returns the target of the best-scoring candidate
(earliest-gathered on ties) and caches it under the query pattern, and
returns the missing value 0 exactly when no scored candidate remains. -/
theorem C6_fallback_characterization (lkp : List ((Nat × Nat) × List (List Nat)))
    (preds : List (List Nat × Nat)) (row : List Nat)
    (hmiss : lookupA preds row = none) :
    predictRow lkp preds row =
      match (dedupFirstFrom [] (totalGather lkp row (List.range (row.length - 1)))).filterMap
          (fun c => (fallbackScore row c).map (fun v => (c, v))) with
      | [] => (0, preds)
      | c :: cs =>
        ((lookupA preds (firstMaxBy Prod.snd c cs).1).getD 0,
          updateA preds row ((lookupA preds (firstMaxBy Prod.snd c cs).1).getD 0)) := by
  rw [predictRow, hmiss]
  rw [gatherCands_eq]
  rcases hs : (dedupFirstFrom [] (totalGather lkp row (List.range (row.length - 1)))).filterMap
      (fun c => (fallbackScore row c).map (fun v => (c, v))) with _ | ⟨c, cs⟩
  · rw [if_pos rfl]
  · rw [if_neg (by simp)]
    rw [bestByDesc_cons]
    rfl

/-- C6 witness. -/
theorem C6_fallback_characterization_witness :
    lookupA [([3, 4], 9)] [3, 0, 7] = none ∧
      predictRow [((0, 3), [[3, 4]])] [([3, 4], 9)] [3, 0, 7] =
        (9, [([3, 4], 9), ([3, 0, 7], 9)]) := by
  refine ⟨by decide, ?_⟩
  rw [C6_fallback_characterization [((0, 3), [[3, 4]])] [([3, 4], 9)] [3, 0, 7] (by decide)]
  decide

/-- C6 counterexample.  After fitting on the two rows (0,5) -> 7 and
(0,5) -> 0, the fallback index holds the consensus pattern (0,5) under the
key (position 1, value 5).  The query (9,5) misses the table and matches that
candidate with zero mismatches at its non-missing position 1, yet predict
returns the missing value 0: the loop `for i in range(len(ptn)-1)` never
consults the last position, so the candidate is not found although one
exists over the query's non-missing positions. -/
theorem C6_counterexample :
    (corparPredict (corparFit [[0, 5], [0, 5]] [7, 0] 1) [[9, 5]]).1 = [0] ∧
      dedupFirstFrom []
          (totalGather (corparFit [[0, 5], [0, 5]] [7, 0] 1).ptnlkp [9, 5]
            (List.range ([9, 5] : List Nat).length)) = [[0, 5]] ∧
      fallbackScore [9, 5] [0, 5] = some 3 ∧
      lookupA (corparFit [[0, 5], [0, 5]] [7, 0] 1).predictions [0, 5] = some 7 ∧
      (0 : Nat) ≠ 7 := by
  refine ⟨by decide, by decide, by decide, by decide, by decide⟩

/-! ### The Baseline orchestrator (sigtypst2022.py lines 325-447) -/

/-- Modelled from the spec: the pluggable alignment primitive must produce
equal-length rows preserving input order; the length-normalizing strategy
right-pads each sequence with the gap symbol to the longest length.  The
progressive aligner is external to this repository (lingpy) and agrees with
this strategy on sequences that are already of equal length. -/
def normalizeAlignment (seqs : List (List String)) : List (List String) :=
  let m := (seqs.map List.length).foldr max 0
  seqs.map (fun s => s ++ List.replicate (m - s.length) "-")

/-- Python `list.index`; in `simple_align` it is only applied to elements of
the list. -/
def idxOfA : List String → String → Nat
  | [], _ => 0
  | x :: xs, y => if x = y then 0 else idxOfA xs y + 1

/-- The function `simple_align(seqs, languages, all_languages, training)`:
strip gaps, align, with `training=True` apply `ungap` with the last of
`languages` as reference, then scatter the alignment columns into rows over
the canonical `all_languages` positions, missing languages holding the
missing symbol. -/
def simpleAlign (seqs : List (List String)) (languages : List String)
    (all_languages : List String) (training : Bool) : List (List String) :=
  let stripped := seqs.map (fun seq => seq.filter (fun s => s ≠ "-"))
  let alms0 := normalizeAlignment stripped
  let alms := if training then ungap alms0 languages (languages.getLastD "") else alms0
  (List.range (alms.headD []).length).map (fun i =>
    languages.enum.foldl
      (fun row p => row.set (idxOfA all_languages p.2) ((alms.getD p.1 []).getD i "Ø"))
      (all_languages.map (fun _ => "Ø")))

/-- Python `" ".join(tokens)`. -/
def joinSpace (tokens : List String) : String := String.intercalate " " tokens

/-- The tokens a cognate-set entry holds for a language (`data[language]`,
absent modelled as the empty token list). -/
def entryTokens (entry : List (String × List String)) (language : String) : List String :=
  (lookupA entry language).getD []

/-- `Baseline.__init__` lines 376-392 for one target language: the
leave-one-out training instances `(cogid, languages, alms)` in cognate-set
order.  Loading the cognate file is external I/O, so the embedding takes the
loaded table (canonical language list, cogid-indexed token table) directly. -/
def instancesFor (canon : List String) (data : List (String × List (String × List String)))
    (language : String) : List (String × List String × List (List String)) :=
  data.flatMap (fun ce =>
    let known := canon.filter (fun l =>
      entryTokens ce.2 l ≠ [] ∧ joinSpace (entryTokens ce.2 l) ≠ "?")
    let alms := known.map (fun l => entryTokens ce.2 l)
    known.enum.flatMap (fun p =>
      if p.2 = language then
        [(ce.1, known.filter (fun l => l ≠ language) ++ [language],
          (alms.enum.filter (fun q => q.1 ≠ p.1)).map Prod.snd ++ [alms.getD p.1 []])]
      else []))

/-- `Baseline.fit` lines 405-415: the per-language pattern table
`self.patterns[language][ptn][row[-1]] += [(cogid, i)]`, accumulated over
the aligned rows of every training instance of `language`. -/
def patternsFor (canon : List String) (data : List (String × List (String × List String)))
    (language : String) :
    List (List String × List (String × List (String × Nat))) :=
  (instancesFor canon data language).foldl
    (fun pats inst =>
      (simpleAlign inst.2.2 inst.2.1 canon true).enum.foldl
        (fun pats p =>
          alterA pats (p.2.take (canon.length - 1)) (fun o =>
            alterA (o.getD []) (p.2.getLastD "") (fun o2 =>
              o2.getD [] ++ [(inst.1, p.1)])))
        pats)
    []

/-- The sound set collected by `Baseline.fit` (lines 404-415), as the list of
its members in encounter order; the alphabet sorts and deduplicates it, so
only the underlying set matters. -/
def baselineSounds (canon : List String)
    (data : List (String × List (String × List String))) : List String :=
  canon.flatMap (fun language =>
    (instancesFor canon data language).flatMap (fun inst =>
      (simpleAlign inst.2.2 inst.2.1 canon true).flatMap (fun row =>
        row.take (canon.length - 1) ++ [row.getLastD ""])))

/-- `Baseline.fit` lines 421-428: flatten one language's pattern table into
its training matrix and solution vector, sounds encoded through the fitted
alphabet, one row per recorded `(cogid, i)` occurrence. -/
def matricesFor (canon : List String) (data : List (String × List (String × List String)))
    (language : String) : List (List Nat) × List Nat :=
  let snds := baselineSounds canon data
  (patternsFor canon data language).foldl
    (fun acc pp =>
      pp.2.foldl
        (fun acc sp =>
          let target := encodeSound snds sp.1
          let row := pp.1.map (encodeSound snds)
          sp.2.foldl (fun acc _ => (acc.1 ++ [row], acc.2 ++ [target])) acc)
        acc)
    ([], [])

/-- `Baseline.fit` lines 430-432: fit one language's classifier on its
flattened matrix and solutions. -/
def baselineFitFor (canon : List String) (data : List (String × List (String × List String)))
    (threshold : Nat) (language : String) : CorparFit :=
  corparFit (matricesFor canon data language).1 (matricesFor canon data language).2 threshold

/-- `Baseline.predict` lines 435-447: align the known forms over the
canonical languages minus the target, encode, run the target language's
classifier, decode. -/
def baselinePredict (canon : List String) (data : List (String × List (String × List String)))
    (threshold : Nat) (languages : List String) (alignments : List (List String))
    (target : String) : List String :=
  let snds := baselineSounds canon data
  let matrix := simpleAlign alignments languages (canon.filter (fun l => l ≠ target)) false
  let newMatrix := matrix.map (fun row => row.map (fun ch => encodeSound snds ch))
  ((corparPredict (baselineFitFor canon data threshold target) newMatrix).1).map
    (fun idx => decodeSound snds idx)

/-- The alphabet the claim describes: the missing sentinel to 0, the gap to
1, and every OTHER observed symbol to 2..N+1 by rank in the lexicographic
sort of those other symbols only. -/
def specSound2idx (sounds : List String) : List (String × Nat) :=
  updateA (updateA
    (baseAlphabet 2 (sortedSounds (sounds.filter (fun s => s ≠ "-" ∧ s ≠ "Ø"))))
    "-" 1) "Ø" 0

/-- C1.  The claim fails for every target language that is not canonically
last: `simple_align` scatters the aligned instance back into CANONICAL
positions, and `fit` then slices the pattern as `row[:len(languages)-1]` and
the target as `row[-1]` by canonical position, ignoring the leave-one-out
reordering built in `__init__`.  With canonical languages A, B, C and the
single cognate set A=p, B=b, C=k, the training instance for target language
A records the pattern (p, b) - which contains A's own value p - with target
k (the value of the canonically LAST language C), instead of the claimed
pattern (b, k) over the source languages B, C with A's value p as target. -/
theorem C1_pattern_target_by_canonical_position :
    patternsFor ["A", "B", "C"] [("1", [("A", ["p"]), ("B", ["b"]), ("C", ["k"])])] "A" =
      [(["p", "b"], [("k", [("1", 0)])])] ∧
      "p" ∈ (["p", "b"] : List String) ∧
      (["p", "b"] : List String) ≠ ["b", "k"] ∧
      ("k" : String) ≠ "p" := by
  refine ⟨by decide, by decide, by decide, by decide⟩

/-- C2 (amended).  On the claim's exact training data the end-to-end
prediction of C for the query A=k u, B=k u deterministically returns the
sequence Ø Ø, not g u: the query sounds k and u were never observed in
training, so they encode to the missing index 0, the classifier's exact
table misses, the fallback skips every missing query position and finds no
candidate, the classifier returns the missing index for both columns, and
decoding yields the missing symbol. -/
theorem C2_unseen_query_returns_missing :
    baselinePredict ["A", "B", "C"]
      [("1", [("A", ["p", "a"]), ("B", ["p", "a"]), ("C", ["b", "a"])]),
        ("2", [("A", ["t", "i"]), ("B", ["t", "i"]), ("C", ["d", "i"])])]
      1 ["A", "B"] [["k", "u"], ["k", "u"]] "C" = ["Ø", "Ø"] := by
  decide

/-- C2 counterexample: the claimed deterministic result g u is not returned. -/
theorem C2_counterexample :
    baselinePredict ["A", "B", "C"]
      [("1", [("A", ["p", "a"]), ("B", ["p", "a"]), ("C", ["b", "a"])]),
        ("2", [("A", ["t", "i"]), ("B", ["t", "i"]), ("C", ["d", "i"])])]
      1 ["A", "B"] [["k", "u"], ["k", "u"]] "C" ≠ ["g", "u"] := by
  decide

/-- C5 counterexample.  The training pipeline observes the gap symbol (an
aligned cell of a padded row), and `sorted(sounds)` ranks the gap together
with all other observed symbols BEFORE the index-0/1 overrides: on the
corpus with canonical languages A, B and the single cognate set A=c,
B=a b, the collected sounds include the gap, the code assigns the symbol a
the index 3, while the claimed assignment (rank among the sorted OTHER
symbols plus 2) gives a the index 2. -/
theorem C5_observed_gap_shifts_indices :
    "-" ∈ baselineSounds ["A", "B"] [("1", [("A", ["c"]), ("B", ["a", "b"])])] ∧
      lookupA (mkSound2idx
        (baselineSounds ["A", "B"] [("1", [("A", ["c"]), ("B", ["a", "b"])])])) "a" =
        some 3 ∧
      lookupA (specSound2idx
        (baselineSounds ["A", "B"] [("1", [("A", ["c"]), ("B", ["a", "b"])])])) "a" =
        some 2 ∧
      (3 : Nat) ≠ 2 := by
  refine ⟨by decide, by decide, by decide, by decide⟩

end ST2022
